import Mathlib

/-!
Verification of the response-extraction core of `chatopt.py` (class `ChatOPT`):
the post-processing performed by `generate_questions` and `generate_masterplan`
on the raw text returned by the upstream model call, and the rendering of the
two prompt templates.

Text is modelled as `List Char`.  The upstream `LLMChain.run` call is an
external collaborator; it is represented by an `Except PyErr (List Char)`
argument (its raw text result, or the exception it raised), so that the
`try`/`except` structure of both methods can be stated faithfully.
-/

/-- Shorthand: the character list of a string literal. -/
def lc (s : String) : List Char := s.data

/-- The character class removed by Python `str.strip()` (the `str.isspace`
set).  Code points are from CPython's Unicode whitespace table. -/
def pyWs (c : Char) : Bool :=
  let n := c.toNat
  (9 ≤ n && n ≤ 13) || (28 ≤ n && n ≤ 32) ||
  n == 133 || n == 160 || n == 5760 || (8192 ≤ n && n ≤ 8202) ||
  n == 8232 || n == 8233 || n == 8239 || n == 8287 || n == 12288

/-- JSON inter-token whitespace accepted by Python `json.loads`. -/
def jsonWs (c : Char) : Bool := c == ' ' || c == '\t' || c == '\n' || c == '\r'

/-- Drop leading JSON whitespace. -/
def skipJson (t : List Char) : List Char := t.dropWhile jsonWs

/-- Python `str.strip()`: remove leading and trailing whitespace. -/
def pyStrip (t : List Char) : List Char :=
  ((t.dropWhile pyWs).reverse.dropWhile pyWs).reverse

/-- Python `str.split('\n')`: split at every newline, keeping empty pieces. -/
def splitNl : List Char → List (List Char)
  | [] => [[]]
  | c :: rest =>
    if c = '\n' then [] :: splitNl rest
    else
      match splitNl rest with
      | [] => [[c]]
      | l :: ls => (c :: l) :: ls

/-- The Python exceptions the handlers in `chatopt.py` distinguish.
`json.JSONDecodeError` and pydantic's `ValidationError` are subclasses of
`ValueError`, so the inner `except (json.JSONDecodeError, ValueError)` catches
them; a `TypeError` (from `APISpec(**spec)` applied to a non-mapping) is not a
`ValueError` and escapes to the outer handler. -/
inductive PyErr where
  | jsonDecodeError (msg : List Char)
  | validationError (msg : List Char)
  | typeError (msg : List Char)

/-- Whether the exception is caught by `except (json.JSONDecodeError, ValueError)`. -/
def PyErr.isValueError : PyErr → Bool
  | .jsonDecodeError _ => true
  | .validationError _ => true
  | .typeError _ => false

/-- The `str(e)` text interpolated by the outer handler. -/
def PyErr.msg : PyErr → List Char
  | .jsonDecodeError m => m
  | .validationError m => m
  | .typeError m => m

/-- Decoded JSON values, as produced by `json.loads`.  Objects keep the parsed
key/value pairs in order (Python builds a `dict`; the later of two equal keys
wins, which the lookup used by the record coercion reproduces).  Numbers keep
their lexeme, since no code under verification inspects numeric values. -/
inductive JVal where
  | null
  | bool (b : Bool)
  | num (lexeme : List Char)
  | str (s : List Char)
  | arr (elems : List JVal)
  | obj (members : List (List Char × JVal))

/-- Value of one hexadecimal digit character, by code point: digits are
48–57, lower-case letters 97–102, upper-case 65–70. -/
def hexDigVal (c : Char) : Option Nat :=
  let n := c.toNat
  if 48 ≤ n ∧ n ≤ 57 then some (n - 48)
  else if 97 ≤ n ∧ n ≤ 102 then some (n - 87)
  else if 65 ≤ n ∧ n ≤ 70 then some (n - 55)
  else none

/-- Value of a four-hex-digit `\uXXXX` escape. -/
def hexQuad (a b c d : Char) : Option Nat := do
  let va ← hexDigVal a
  let vb ← hexDigVal b
  let vc ← hexDigVal c
  let vd ← hexDigVal d
  some (((va * 16 + vb) * 16 + vc) * 16 + vd)

/-- The single-character JSON escapes. -/
def escCode : Char → Option Char
  | '"' => some '"'
  | '\\' => some '\\'
  | '/' => some '/'
  | 'b' => some (Char.ofNat 8)
  | 'f' => some (Char.ofNat 12)
  | 'n' => some '\n'
  | 'r' => some '\r'
  | 't' => some '\t'
  | _ => none

/-- A code point as a `Char`; code points `Char` cannot carry (lone
surrogates, which CPython would keep as surrogate code units in the `str`)
become U+FFFD.  No claim exercises this corner. -/
def scalarChar (n : Nat) : Char :=
  if Nat.isValidChar n then Char.ofNat n else Char.ofNat 0xFFFD

/-- Body of a JSON string literal after the opening quote, decoded to UTF-16
code units, in Python's strict mode: unescaped control characters are
rejected; `\uXXXX` escapes yield their code unit.  Raw characters contribute
their code point (never a surrogate, since `Char` has none). -/
def strUnits : List Char → Option (List Nat × List Char)
  | [] => none
  | c :: rest =>
    if c = '"' then some ([], rest)
    else if c = '\\' then
      match rest with
      | 'u' :: a :: b :: c2 :: d :: r2 => do
        let n ← hexQuad a b c2 d
        let (s, r) ← strUnits r2
        some (n :: s, r)
      | e :: r2 => do
        let d ← escCode e
        let (s, r) ← strUnits r2
        some (d.toNat :: s, r)
      | [] => none
    else if c.toNat < 32 then none
    else do
      let (s, r) ← strUnits rest
      some (c.toNat :: s, r)

/-- Combine adjacent high/low surrogate code units, as CPython's scanner does
for consecutive `\uXXXX` escapes (the only way a surrogate unit can arise
here). -/
def combineUnitsF : Nat → List Nat → List Char
  | 0, _ => []
  | _ + 1, [] => []
  | fu + 1, n :: rest =>
    if 0xD800 ≤ n && n < 0xDC00 then
      match rest with
      | m :: rest2 =>
        if 0xDC00 ≤ m && m < 0xE000 then
          scalarChar (0x10000 + (n - 0xD800) * 0x400 + (m - 0xDC00)) :: combineUnitsF fu rest2
        else scalarChar n :: combineUnitsF fu rest
      | [] => [scalarChar n]
    else scalarChar n :: combineUnitsF fu rest

/-- `combineUnitsF` with enough fuel to process the whole list. -/
def combineUnits (us : List Nat) : List Char := combineUnitsF us.length us

/-- Body of a JSON string literal after the opening quote: the decoded
characters and the remainder of the input. -/
def strBody (t : List Char) : Option (List Char × List Char) :=
  match strUnits t with
  | some (us, r) => some (combineUnits us, r)
  | none => none

/-- Decimal digit test. -/
def isDig (c : Char) : Bool := '0' ≤ c && c ≤ '9'

/-- Longest digit run at the head, and the remainder. -/
def digSpan (t : List Char) : List Char × List Char :=
  (t.takeWhile isDig, t.dropWhile isDig)

/-- Optional fraction group `(\.[0-9]+)?` of Python's JSON number regex: when
the group cannot match, it matches emptily — it never fails outright. -/
def fracPart (t : List Char) : List Char × List Char :=
  match t with
  | '.' :: r =>
    let (ds, r2) := digSpan r
    if ds = [] then ([], '.' :: r) else ('.' :: ds, r2)
  | _ => ([], t)

/-- Optional exponent group `([eE][-+]?[0-9]+)?`, likewise never failing. -/
def expPart (t : List Char) : List Char × List Char :=
  match t with
  | c :: r =>
    if c = 'e' || c = 'E' then
      match r with
      | s :: r1 =>
        if s = '+' || s = '-' then
          let (ds, r2) := digSpan r1
          if ds = [] then ([], c :: s :: r1) else (c :: s :: ds, r2)
        else
          let (ds, r2) := digSpan r
          if ds = [] then ([], c :: r) else (c :: ds, r2)
      | [] => ([], [c])
    else ([], c :: r)
  | [] => ([], [])

/-- Python's JSON number token `-?(0|[1-9][0-9]*)(\.[0-9]+)?([eE][+-]?[0-9]+)?`
matched at the head of the input: the lexeme and the remainder. -/
def numToken (t : List Char) : Option (List Char × List Char) :=
  let (sgn, t1) := match t with
    | '-' :: r => (['-'], r)
    | _ => (([] : List Char), t)
  match t1 with
  | [] => none
  | c :: r =>
    if c = '0' then
      let (f, r2) := fracPart r
      let (e, r3) := expPart r2
      some (sgn ++ '0' :: (f ++ e), r3)
    else if isDig c then
      let (ds, r1) := digSpan r
      let (f, r2) := fracPart r1
      let (e, r3) := expPart r2
      some (sgn ++ c :: (ds ++ f ++ e), r3)
    else none

/-- The non-recursive alternatives of the scanner: the literals `null`,
`true`, `false`, the constants `NaN`, `Infinity`, `-Infinity`, and numbers.
As in CPython, a head character that fits none of them is an error
(`numToken` fails on it). -/
def parseConst (c : Char) (r : List Char) : Option (JVal × List Char) :=
  if c = 'n' then
    match r with
    | 'u' :: 'l' :: 'l' :: r2 => some (.null, r2)
    | _ => none
  else if c = 't' then
    match r with
    | 'r' :: 'u' :: 'e' :: r2 => some (.bool true, r2)
    | _ => none
  else if c = 'f' then
    match r with
    | 'a' :: 'l' :: 's' :: 'e' :: r2 => some (.bool false, r2)
    | _ => none
  else if c = 'N' then
    match r with
    | 'a' :: 'N' :: r2 => some (.num (lc "NaN"), r2)
    | _ => none
  else if c = 'I' then
    match r with
    | 'n' :: 'f' :: 'i' :: 'n' :: 'i' :: 't' :: 'y' :: r2 =>
      some (.num (lc "Infinity"), r2)
    | _ => none
  else if c = '-' then
    match r with
    | 'I' :: 'n' :: 'f' :: 'i' :: 'n' :: 'i' :: 't' :: 'y' :: r2 =>
      some (.num (lc "-Infinity"), r2)
    | _ =>
      match numToken ('-' :: r) with
      | some (ds, r2) => some (.num ds, r2)
      | none => none
  else
    match numToken (c :: r) with
    | some (ds, r2) => some (.num ds, r2)
    | none => none

mutual

/-- One JSON value at the head of the input (whitespace already skipped by the
caller, as in CPython's `scan_once`).  Structural on the fuel so that the
definition computes by reduction; `json_loads` supplies ample fuel. -/
def parseVal : Nat → List Char → Option (JVal × List Char)
  | 0, _ => none
  | _ + 1, [] => none
  | fu + 1, c :: r =>
    if c = '"' then
      match strBody r with
      | some (s, r2) => some (.str s, r2)
      | none => none
    else if c = '[' then
      match skipJson r with
      | ']' :: r2 => some (.arr [], r2)
      | t1 =>
        match parseItems fu t1 with
        | some (l, r2) => some (.arr l, r2)
        | none => none
    else if c = '{' then
      match skipJson r with
      | '}' :: r2 => some (.obj [], r2)
      | t1 =>
        match parsePairs fu t1 with
        | some (ms, r2) => some (.obj ms, r2)
        | none => none
    else parseConst c r

/-- One or more comma-separated array items, ending at `]` (the empty array is
handled in `parseVal`). -/
def parseItems : Nat → List Char → Option (List JVal × List Char)
  | 0, _ => none
  | fu + 1, cs =>
    match parseVal fu cs with
    | none => none
    | some (v, r) =>
      match skipJson r with
      | ',' :: r2 =>
        match parseItems fu (skipJson r2) with
        | some (vs, r3) => some (v :: vs, r3)
        | none => none
      | ']' :: r2 => some ([v], r2)
      | _ => none

/-- One or more comma-separated object members, ending at `}` (the empty
object is handled in `parseVal`). -/
def parsePairs : Nat → List Char → Option (List (List Char × JVal) × List Char)
  | 0, _ => none
  | fu + 1, cs =>
    match cs with
    | '"' :: r =>
      match strBody r with
      | none => none
      | some (k, r1) =>
        match skipJson r1 with
        | ':' :: r2 =>
          match parseVal fu (skipJson r2) with
          | none => none
          | some (v, r3) =>
            match skipJson r3 with
            | ',' :: r4 =>
              match parsePairs fu (skipJson r4) with
              | some (ms, r5) => some ((k, v) :: ms, r5)
              | none => none
            | '}' :: r4 => some ([(k, v)], r4)
            | _ => none
        | _ => none
    | _ => none

end

/-- `json.loads`: skip leading whitespace, parse one value, and require that
only whitespace remains.  Every failure raises `json.JSONDecodeError`, a
subclass of `ValueError`.  The fuel bound exceeds what any input can consume
(each unit of fuel spent is matched by at least one consumed character, with
at most two units per character at array/object openings). -/
def json_loads (t : List Char) : Except PyErr JVal :=
  let t1 := skipJson t
  match parseVal (2 * t1.length + 4) t1 with
  | some (v, r) =>
    if skipJson r = [] then .ok v
    else .error (.jsonDecodeError (lc "Extra data"))
  | none => .error (.jsonDecodeError (lc "Expecting value"))

/-- `APISpec` (pydantic `BaseModel`) from `chatopt.py`: required fields
`name`, `description`, `endpoints : List[Dict]`, `build_in_house : bool` and
`reason`.  A bare `Dict` places no constraint on the values, so an endpoint
is an arbitrary decoded JSON object. -/
structure APISpec where
  name : List Char
  description : List Char
  endpoints : List (List (List Char × JVal))
  build_in_house : Bool
  reason : List Char

/-- `MasterplanResponse` from `chatopt.py`; `questions` defaults to `None`
and is never set by `generate_masterplan`. -/
structure MasterplanResponse where
  markdown_content : List Char
  api_specs : List APISpec
  questions : Option (List (List Char)) := none

/-- Python dict lookup over the parsed member list: the later of two equal
keys wins, as when `json.loads` builds the dict. -/
def dictGet (k : List Char) : List (List Char × JVal) → Option JVal
  | [] => none
  | (k2, v) :: rest =>
    match dictGet k rest with
    | some r => some r
    | none => if k2 = k then some v else none

/-- Pydantic validation of a `str` field. -/
def asStrVal : JVal → Option (List Char)
  | .str s => some s
  | _ => none

/-- ASCII lowercase, for pydantic's case-insensitive boolean strings. -/
def lowerAscii (c : Char) : Char :=
  if 'A' ≤ c && c ≤ 'Z' then Char.ofNat (c.toNat + 32) else c

/-- Pydantic lax coercion to `bool`: booleans, the numbers 0 and 1, and the
usual true/false words (case-insensitive). -/
def asBoolVal : JVal → Option Bool
  | .bool b => some b
  | .num l =>
    if l = lc "0" || l = lc "0.0" then some false
    else if l = lc "1" || l = lc "1.0" then some true
    else none
  | .str s =>
    let w := s.map lowerAscii
    if w = lc "true" || w = lc "t" || w = lc "yes" || w = lc "y" || w = lc "on" || w = lc "1" then
      some true
    else if w = lc "false" || w = lc "f" || w = lc "no" || w = lc "n" || w = lc "off" || w = lc "0" then
      some false
    else none
  | _ => none

/-- A decoded value usable as a `Dict`. -/
def asObjVal : JVal → Option (List (List Char × JVal))
  | .obj m => some m
  | _ => none

/-- Each element of the `endpoints` list must be a `Dict`; the first
non-object makes the whole validation fail. -/
def objValsOf : List JVal → Option (List (List (List Char × JVal)))
  | [] => some []
  | v :: rest => do
    let o ← asObjVal v
    let os ← objValsOf rest
    some (o :: os)

/-- Pydantic validation of the `endpoints : List[Dict]` field. -/
def asEndpoints : JVal → Option (List (List (List Char × JVal)))
  | .arr l => objValsOf l
  | _ => none

/-- Validation of a decoded JSON object against `APISpec`: all five required
fields must be present and coercible; extra keys are ignored (the pydantic
default). -/
def specOfObj (kvs : List (List Char × JVal)) : Option APISpec := do
  let n ← (dictGet (lc "name") kvs).bind asStrVal
  let d ← (dictGet (lc "description") kvs).bind asStrVal
  let epsV ← dictGet (lc "endpoints") kvs
  let eps ← asEndpoints epsV
  let b ← (dictGet (lc "build_in_house") kvs).bind asBoolVal
  let r ← (dictGet (lc "reason") kvs).bind asStrVal
  some ⟨n, d, eps, b, r⟩

/-- The Python type name appearing in `TypeError` messages. -/
def pyTypeName : JVal → List Char
  | .null => lc "NoneType"
  | .bool _ => lc "bool"
  | .num l =>
    if l.contains '.' || l.contains 'e' || l.contains 'E' ||
       l = lc "NaN" || l = lc "Infinity" || l = lc "-Infinity" then lc "float"
    else lc "int"
  | .str _ => lc "str"
  | .arr _ => lc "list"
  | .obj _ => lc "dict"

/-- `APISpec(**spec)`: a mapping is validated (failure being a pydantic
`ValidationError`, a subclass of `ValueError`); `**` applied to anything else
raises `TypeError`, which is not a `ValueError`. -/
def apiSpecOf (v : JVal) : Except PyErr APISpec :=
  match v with
  | .obj kvs =>
    match specOfObj kvs with
    | some s => .ok s
    | none => .error (.validationError (lc "validation error for APISpec"))
  | v =>
    .error (.typeError
      (lc "APISpec() argument after ** must be a mapping, not " ++ pyTypeName v))

/-- The list comprehension `[APISpec(**spec) for spec in api_specs_raw]` over
an already-materialised element list: left to right, first exception wins. -/
def coerceList : List JVal → Except PyErr (List APISpec)
  | [] => .ok []
  | v :: rest => do
    let s ← apiSpecOf v
    let l ← coerceList rest
    pure (s :: l)

/-- `for spec in api_specs_raw`: Python iteration over the decoded value.  A
list iterates its elements; a string iterates its characters and a dict its
keys (each then failing `**`-expansion as a non-mapping); other values raise
`TypeError` at the iteration itself. -/
def iterCoerce : JVal → Except PyErr (List APISpec)
  | .arr l => coerceList l
  | .str s => coerceList (s.map (fun c => .str [c]))
  | .obj kvs => coerceList (kvs.map (fun kv => .str kv.1))
  | v => .error (.typeError (lc "'" ++ pyTypeName v ++ lc "' object is not iterable"))

/-- The regex whitespace class `\s` (Unicode, as for `re` over `str`). -/
def reWs (c : Char) : Bool := pyWs c

/-- Whether `r'\[\s*{\s*"name":'` matches at the head of `t`.  Greedy `\s*`
is maximal munch without loss here: `{` and `"` are not whitespace, so no
backtracking alternative exists. -/
def nameArrayAt (t : List Char) : Bool :=
  match t with
  | '[' :: r =>
    match r.dropWhile reWs with
    | '{' :: r2 => (lc "\"name\":").isPrefixOf (r2.dropWhile reWs)
    | _ => false
  | _ => false

/-- `re.search(r'\[\s*{\s*"name":', response)`: start index of the earliest
match, if any. -/
def searchNameArray : List Char → Option Nat
  | [] => none
  | c :: rest =>
    if nameArrayAt (c :: rest) then some 0
    else (searchNameArray rest).map (· + 1)

/-- The bracket-balance scan of `generate_masterplan`: walking the text with
a running count of `[` minus `]`, the index of the first `]` at which the
count returns to zero (`none` when the loop finishes without one). -/
def bracketZero : List Char → Int → Option Nat
  | [], _ => none
  | c :: rest, count =>
    let count2 := if c = '[' then count + 1 else if c = ']' then count - 1 else count
    if c = ']' ∧ count2 = 0 then some 0
    else (bracketZero rest count2).map (· + 1)

/-- `json_content` after the scan: truncated just past the balancing `]`, or
left whole when the count never returns to zero. -/
def bracketSlice (t : List Char) : List Char :=
  match bracketZero t 0 with
  | some i => t.take (i + 1)
  | none => t

/-- Steps 1–3 inside the inner `try` of `generate_masterplan`: find the array
marker, isolate the array by bracket balance, `json.loads` it, and coerce
each element to an `APISpec`.  With no marker the whole text is the markdown;
on success the markdown is the prefix before the marker, stripped.  Failures
propagate as the Python exceptions they raise. -/
def masterplanExtract (response : List Char) : Except PyErr MasterplanResponse :=
  match searchNameArray response with
  | none => .ok ⟨response, [], none⟩
  | some jsonStart => do
    let jsonContent := bracketSlice (response.drop jsonStart)
    let raw ← json_loads jsonContent
    let specs ← iterCoerce raw
    pure ⟨pyStrip (response.take jsonStart), specs, none⟩

/-- The inner `except (json.JSONDecodeError, ValueError)`: those failures
degrade to the unmodified raw text with no specs; any other exception
escapes. -/
def masterplanTry (response : List Char) : Except PyErr MasterplanResponse :=
  match masterplanExtract response with
  | .ok r => .ok r
  | .error e => if e.isValueError then .ok ⟨response, [], none⟩ else .error e

/-- `generate_masterplan`, as a function of the upstream `chain.run` outcome:
the outer `except Exception` converts any remaining exception into an
explanatory markdown result with no specs. -/
def generate_masterplan (upstream : Except PyErr (List Char)) : MasterplanResponse :=
  match upstream with
  | .ok response =>
    match masterplanTry response with
    | .ok r => r
    | .error e =>
      ⟨lc "An error occurred while generating the masterplan: " ++ e.msg, [], none⟩
  | .error e =>
    ⟨lc "An error occurred while generating the masterplan: " ++ e.msg, [], none⟩

/-- The line filter of the fallback in `generate_questions`, applied to the
stripped line: non-empty, not starting with `[`, not ending with `]`. -/
def keepLine (s : List Char) : Bool :=
  !s.isEmpty && !(s.head? == some '[') && !(s.getLast? == some ']')

/-- The fallback of `generate_questions`:
`[line.strip() for line in response.strip().split('\n') if ...]`. -/
def fallbackLines (response : List Char) : List (List Char) :=
  ((splitNl (pyStrip response)).map pyStrip).filter keepLine

/-- The parsing stage of `generate_questions` on the raw model text: a
decoded JSON list is returned as-is (elements unvalidated); any other decoded
value gives the fixed placeholder; a `JSONDecodeError` falls back to the
line heuristic, with the placeholder if that yields nothing. -/
def questionsBody (response : List Char) : List JVal :=
  match json_loads response with
  | .ok (.arr l) => l
  | .ok _ => [.str (lc "Could not generate questions. Please try again.")]
  | .error _ =>
    let lines := fallbackLines response
    if lines.isEmpty then [.str (lc "Could not generate questions. Please try again.")]
    else lines.map .str

/-- `generate_questions`, as a function of the upstream `chain.run` outcome:
the outer `except Exception` yields the fixed single-element error list. -/
def generate_questions (upstream : Except PyErr (List Char)) : List JVal :=
  match upstream with
  | .ok response => questionsBody response
  | .error _ =>
    [.str (lc "An error occurred while generating questions. Please try again.")]

/-- One piece of a `PromptTemplate`: literal text, or a `{variable}` slot.
This is the segment decomposition of the f-string-style template text (the
doubled braces of the source template denote literal braces and belong to
literal segments). -/
inductive TSeg where
  | lit (s : List Char)
  | varRef (v : List Char)

/-- `PromptTemplate.format`: substitute every variable slot. -/
def renderTemplate (segs : List TSeg) (f : List Char → List Char) : List Char :=
  match segs with
  | [] => []
  | .lit s :: rest => s ++ renderTemplate rest f
  | .varRef v :: rest => f v ++ renderTemplate rest f

/-- The business-context labels shared by the two templates, each with the
newline and indentation that precede it in the source text. -/
def labelMission : List Char := lc "\n            - Mission Statement/Operating Model: "

/-- Label preceding the company-name slot. -/
def labelCompany : List Char := lc "\n            - Company Name: "

/-- Label preceding the industry slot. -/
def labelIndustry : List Char := lc "\n            - Industry: "

/-- Label preceding the business-size slot. -/
def labelSize : List Char := lc "\n            - Business Size: "

/-- Leading literal text of the questions template. -/
def questionsIntro : List Char := lc "\n            You are ChatOPT, an expert in API design and software architecture. Your task is to ask follow-up questions to gather more information about the business before generating an API masterplan.\n            \n            Business Context:"

/-- Trailing literal text of the questions template. -/
def questionsOutro : List Char := lc "\n            \n            Based on this information, generate 5-7 specific questions that will help you better understand:\n            1. The core business processes\n            2. The users/customers and their needs\n            3. Existing systems and integrations\n            4. Data handling requirements\n            5. Scalability and performance expectations\n            6. Security and compliance requirements\n            \n            Format your output as a JSON list of strings containing only the questions, without any introductory text.\n            "

/-- The questions template (`self.questions_prompt`), split at its four
variable slots; literal text transcribed from the source, indentation
included. -/
def questionsTemplate : List TSeg :=
  [.lit questionsIntro,
   .lit labelMission,
   .varRef (lc "mission_statement"),
   .lit labelCompany,
   .varRef (lc "company_name"),
   .lit labelIndustry,
   .varRef (lc "industry"),
   .lit labelSize,
   .varRef (lc "business_size"),
   .lit questionsOutro]

/-- Leading literal text of the masterplan template. -/
def masterplanIntro : List Char := lc "\n            You are ChatOPT, an expert in API design and software architecture. Based on the business context below, create a comprehensive API masterplan.\n            \n            Business Context:"

/-- Trailing literal text of the masterplan template (the doubled braces of
the source denote the literal braces present here). -/
def masterplanOutro : List Char := lc "\n            \n            Generate a markdown OPT (Operating Process Technology) masterplan that includes:\n            \n            1. Executive Summary: A brief overview of the proposed API architecture.\n            \n            2. Core API Specifications:\n               - For each core business function, define an API with:\n                 - Name and description\n                 - Key endpoints (routes, methods, purpose)\n                 - Data models\n                 - Whether it should be built in-house or integrated with third-party services (with reasoning)\n            \n            3. Integration Architecture:\n               - How the APIs connect with each other\n               - Authentication and security considerations\n               - Data flows between systems\n            \n            4. Implementation Roadmap:\n               - Prioritized list of APIs to develop\n               - Estimated complexity for each\n               - Dependencies between APIs\n            \n            5. Technical Considerations:\n               - Scalability recommendations\n               - Security best practices\n               - Monitoring and observability suggestions\n            \n            Format your response with two parts:\n            1. The full markdown content for the masterplan\n            2. A structured JSON array of API specifications with the following format for each API:\n               ```\n               \x7b\n                 \"name\": \"API name\",\n                 \"description\": \"Brief description\",\n                 \"endpoints\": [\n                   \x7b\n                     \"path\": \"/example/path\",\n                     \"method\": \"GET|POST|PUT|DELETE\",\n                     \"purpose\": \"What this endpoint does\"\n                   \x7d\n                 ],\n                 \"build_in_house\": true|false,\n                 \"reason\": \"Reasoning for build vs integrate decision\"\n               \x7d\n               ```\n            \n            IMPORTANT: Make sure your JSON is valid and properly formatted.\n            "

/-- The masterplan template (`self.masterplan_prompt`), split at its four
variable slots. -/
def masterplanTemplate : List TSeg :=
  [.lit masterplanIntro,
   .lit labelMission,
   .varRef (lc "mission_statement"),
   .lit labelCompany,
   .varRef (lc "company_name"),
   .lit labelIndustry,
   .varRef (lc "industry"),
   .lit labelSize,
   .varRef (lc "business_size"),
   .lit masterplanOutro]

/-- Python `x or "Not specified"` on an optional string argument: both `None`
and the empty string are falsy, so both yield the sentinel. -/
def orNotSpecified (x : Option (List Char)) : List Char :=
  match x with
  | none => lc "Not specified"
  | some s => if s = [] then lc "Not specified" else s

/-- The input dict both methods pass to `chain.run`, as an assignment of the
four template variables; the sentinel is applied here, before formatting. -/
def promptInputs (m : List Char) (c i b : Option (List Char)) (v : List Char) : List Char :=
  if v = lc "mission_statement" then m
  else if v = lc "company_name" then orNotSpecified c
  else if v = lc "industry" then orNotSpecified i
  else if v = lc "business_size" then orNotSpecified b
  else []

/-- The prompt string `generate_questions` sends to the model. -/
def renderQuestionsPrompt (m : List Char) (c i b : Option (List Char)) : List Char :=
  renderTemplate questionsTemplate (promptInputs m c i b)

/-- The prompt string `generate_masterplan` sends to the model. -/
def renderMasterplanPrompt (m : List Char) (c i b : Option (List Char)) : List Char :=
  renderTemplate masterplanTemplate (promptInputs m c i b)

/-- The whole of `generate_questions` as a function of the model collaborator
`llm`: the rendered prompt is exactly what is sent. -/
def generateQuestionsWith (llm : List Char → Except PyErr (List Char))
    (m : List Char) (c i b : Option (List Char)) : List JVal :=
  generate_questions (llm (renderQuestionsPrompt m c i b))

/-- The whole of `generate_masterplan` as a function of the model
collaborator `llm`. -/
def generateMasterplanWith (llm : List Char → Except PyErr (List Char))
    (m : List Char) (c i b : Option (List Char)) : MasterplanResponse :=
  generate_masterplan (llm (renderMasterplanPrompt m c i b))

set_option maxRecDepth 10000

/-! ### Helper lemmas -/

/-- A text none of whose positions matches the array marker has no search
hit. -/
theorem searchNameArray_eq_none (t : List Char)
    (h : ∀ i < t.length, nameArrayAt (t.drop i) = false) :
    searchNameArray t = none := by
  induction t with
  | nil => rfl
  | cons c rest ih =>
    have h0 : nameArrayAt (c :: rest) = false := h 0 (by simp)
    have hrest : searchNameArray rest = none := by
      refine ih fun i hi => ?_
      have := h (i + 1) (by simpa using Nat.succ_lt_succ hi)
      simpa [List.drop_succ_cons] using this
    simp [searchNameArray, h0, hrest]

/-- Any `ValueError`-class failure of the extraction steps is caught by the
inner handler, which degrades to the raw text with no specs. -/
theorem valueErrorDegrade (t : List Char) (e : PyErr)
    (h : masterplanExtract t = .error e) (hv : e.isValueError = true) :
    generate_masterplan (.ok t) = ⟨t, [], none⟩ := by
  simp [generate_masterplan, masterplanTry, h, hv]

/-- When every element of the decoded array is an object and at least one of
them fails validation, the comprehension fails with a `ValidationError`. -/
theorem coerceList_validation_failure (l : List JVal)
    (hobj : ∀ v ∈ l, ∃ kvs, v = .obj kvs)
    (hbad : ∃ v ∈ l, ∃ kvs, v = .obj kvs ∧ specOfObj kvs = none) :
    ∃ m, coerceList l = .error (.validationError m) := by
  induction l with
  | nil =>
    rcases hbad with ⟨v, hv, _⟩
    exact absurd hv (List.not_mem_nil v)
  | cons a as ih =>
    obtain ⟨kvs, rfl⟩ := hobj _ (List.mem_cons_self a as)
    cases hs : specOfObj kvs with
    | none =>
      refine ⟨lc "validation error for APISpec", ?_⟩
      simp [coerceList, apiSpecOf, hs, Bind.bind, Except.bind]
    | some s =>
      have hbad2 : ∃ v ∈ as, ∃ kvs2, v = .obj kvs2 ∧ specOfObj kvs2 = none := by
        rcases hbad with ⟨v, hv, kvs2, hv2, hn⟩
        rcases List.mem_cons.mp hv with rfl | hmem
        · cases hv2
          exact absurd hs (by rw [hn]; exact fun hc => Option.noConfusion hc)
        · exact ⟨v, hmem, kvs2, hv2, hn⟩
      obtain ⟨m, hm⟩ := ih (fun v hv => hobj v (List.mem_cons_of_mem _ hv)) hbad2
      refine ⟨m, ?_⟩
      simp [coerceList, apiSpecOf, hs, hm, Bind.bind, Except.bind]

/-! ### Claim C5 -/

/-- Claim C5: when no position of the input matches the array-marker pattern
(an opening bracket, then an opening brace, then the key `"name":`, allowing
intervening whitespace), `generate_masterplan` returns the input verbatim —
not trimmed — as `markdown_content`, with an empty `api_specs` list. -/
theorem C5_no_marker_text_verbatim (t : List Char)
    (h : ∀ i < t.length, nameArrayAt (t.drop i) = false) :
    generate_masterplan (.ok t) = ⟨t, [], none⟩ := by
  simp [generate_masterplan, masterplanTry, masterplanExtract, searchNameArray_eq_none t h]

/-- Witness for C5 at a concrete input with brackets but no marker. -/
theorem C5_witness :
    generate_masterplan (.ok (lc "  see [1] and {2}.  ")) = ⟨lc "  see [1] and {2}.  ", [], none⟩ :=
  C5_no_marker_text_verbatim (lc "  see [1] and {2}.  ") (by decide)

/-! ### Claim C7 -/

/-- Claim C7: an input that decodes to a JSON list is returned by
`generate_questions` exactly as decoded, with no validation of the element
types. -/
theorem C7_json_list_returned_unchanged (t : List Char) (l : List JVal)
    (h : json_loads t = .ok (.arr l)) : generate_questions (.ok t) = l := by
  simp [generate_questions, questionsBody, h]

/-- Witness for C7: a list mixing a string and a number comes back as-is. -/
theorem C7_witness :
    json_loads (lc "[\"a\", 2]") = .ok (.arr [.str (lc "a"), .num (lc "2")]) ∧
    generate_questions (.ok (lc "[\"a\", 2]")) = [.str (lc "a"), .num (lc "2")] :=
  ⟨rfl, C7_json_list_returned_unchanged _ _ rfl⟩

/-! ### Claim C10 -/

/-- Claim C10: an input that decodes to valid JSON other than a list makes
`generate_questions` return the fixed single-element placeholder list,
without attempting the line-based fallback. -/
theorem C10_nonlist_json_placeholder (t : List Char) (v : JVal)
    (h : json_loads t = .ok v) (hv : ∀ l, v ≠ .arr l) :
    generate_questions (.ok t) =
      [.str (lc "Could not generate questions. Please try again.")] := by
  cases v with
  | arr l => exact absurd rfl (hv l)
  | null => simp [generate_questions, questionsBody, h]
  | bool b => simp [generate_questions, questionsBody, h]
  | num m => simp [generate_questions, questionsBody, h]
  | str s => simp [generate_questions, questionsBody, h]
  | obj kvs => simp [generate_questions, questionsBody, h]

/-- Witness for C10: a JSON object input yields the placeholder even though
the line-based fallback would have produced a non-placeholder line. -/
theorem C10_witness :
    json_loads (lc "\x7b\"q\": 1\x7d") = .ok (.obj [(lc "q", .num (lc "1"))]) ∧
    fallbackLines (lc "\x7b\"q\": 1\x7d") = [lc "\x7b\"q\": 1\x7d"] ∧
    generate_questions (.ok (lc "\x7b\"q\": 1\x7d")) =
      [.str (lc "Could not generate questions. Please try again.")] :=
  ⟨rfl, rfl, C10_nonlist_json_placeholder _ _ rfl (fun _ h => JVal.noConfusion h)⟩

/-! ### Claim C2 -/

/-- Claim C2 counterexample input: a well-formed array whose second element
is the number `5`.  `APISpec(**5)` raises `TypeError`, which the inner
`except (json.JSONDecodeError, ValueError)` does not catch, so the outer
handler substitutes an error message for the raw text. -/
def c2CexIn : List Char :=
  lc "md\n[\x7b\"name\":\"a\",\"description\":\"d\",\"endpoints\":[],\"build_in_house\":true,\"reason\":\"r\"\x7d,5]"

/-- Counterexample to claim C2 as stated: here the coercion step fails (with
`TypeError`), yet `markdown_content` is not the raw input text — it is the
outer handler's error message. -/
theorem C2_counterexample :
    masterplanExtract c2CexIn =
      .error (.typeError (lc "APISpec() argument after ** must be a mapping, not int")) ∧
    (generate_masterplan (.ok c2CexIn)).markdown_content ≠ c2CexIn ∧
    (generate_masterplan (.ok c2CexIn)).markdown_content =
      lc "An error occurred while generating the masterplan: APISpec() argument after ** must be a mapping, not int" :=
  ⟨rfl, by decide, rfl⟩

/-- Claim C2 (amended): a failure of the extraction steps that raises a
`ValueError` — which covers malformed JSON (`json.JSONDecodeError`) and
pydantic validation failures, but not the `TypeError` raised when an array
element is not an object — makes `generate_masterplan` return the full raw
text unmodified with an empty spec list, silently. -/
theorem C2_valueerror_silent_degradation (t : List Char) (e : PyErr)
    (h : masterplanExtract t = .error e) (hv : e.isValueError = true) :
    generate_masterplan (.ok t) = ⟨t, [], none⟩ :=
  valueErrorDegrade t e h hv

/-- Witness input for C2: the marker is found but the JSON is malformed. -/
def c2WitIn : List Char := lc "x [\n\x7b\"name\": oops"

/-- Witness for C2 at a malformed-JSON input. -/
theorem C2_witness :
    masterplanExtract c2WitIn = .error (.jsonDecodeError (lc "Expecting value")) ∧
    generate_masterplan (.ok c2WitIn) = ⟨c2WitIn, [], none⟩ :=
  ⟨rfl, C2_valueerror_silent_degradation c2WitIn _ rfl rfl⟩

/-! ### Claim C6 -/

/-- Claim C6: both methods are total — every path returns a well-formed
value, never an exception.  The outer guards: an upstream failure (or any
exception escaping the inner handler, i.e. a non-`ValueError` such as the
coercion `TypeError`) makes `generate_questions` return the fixed
single-element error list, and makes `generate_masterplan` return a markdown
string interpolating the exception's message, with no specs. -/
theorem C6_outer_guard_never_raises :
    (∀ e, generate_questions (.error e) =
      [.str (lc "An error occurred while generating questions. Please try again.")]) ∧
    (∀ e, generate_masterplan (.error e) =
      ⟨lc "An error occurred while generating the masterplan: " ++ e.msg, [], none⟩) ∧
    (∀ t e, masterplanTry t = .error e → generate_masterplan (.ok t) =
      ⟨lc "An error occurred while generating the masterplan: " ++ e.msg, [], none⟩) := by
  refine ⟨fun e => rfl, fun e => rfl, fun t e h => ?_⟩
  simp [generate_masterplan, h]

/-- Witness input for C6: a well-formed array whose second element is
`null`, so the coercion raises an uncaught `TypeError`. -/
def c6WitIn : List Char :=
  lc "m\n[\x7b\"name\":\"a\",\"description\":\"d\",\"endpoints\":[],\"build_in_house\":true,\"reason\":\"r\"\x7d,null]"

/-- Witness for C6: the escaping `TypeError` and an upstream failure both
produce the outer guards' results. -/
theorem C6_witness :
    masterplanTry c6WitIn =
      .error (.typeError (lc "APISpec() argument after ** must be a mapping, not NoneType")) ∧
    generate_masterplan (.ok c6WitIn) =
      ⟨lc "An error occurred while generating the masterplan: APISpec() argument after ** must be a mapping, not NoneType", [], none⟩ ∧
    generate_masterplan (.error (.typeError (lc "boom"))) =
      ⟨lc "An error occurred while generating the masterplan: boom", [], none⟩ ∧
    generate_questions (.error (.validationError (lc "boom"))) =
      [.str (lc "An error occurred while generating questions. Please try again.")] :=
  ⟨rfl, C6_outer_guard_never_raises.2.2 c6WitIn _ rfl,
   C6_outer_guard_never_raises.2.1 _, C6_outer_guard_never_raises.1 _⟩

/-! ### Claim C4 -/

/-- Claim C4 counterexample input: the array holds a valid record, the bare
number `7`, and a record missing required fields. -/
def c4CexIn : List Char :=
  lc "x [\x7b\"name\":\"a\",\"description\":\"d\",\"endpoints\":[],\"build_in_house\":true,\"reason\":\"r\"\x7d, 7, \x7b\"name\":\"x\"\x7d]"

/-- Counterexample to claim C4 as stated: the located and parsed array
contains a record missing a required field (`{"name": "x"}`), yet the result
is not the full original text with an empty list — the `TypeError` raised on
the element `7` (reached first) escapes to the outer handler instead. -/
theorem C4_counterexample :
    searchNameArray c4CexIn = some 2 ∧
    json_loads (bracketSlice (c4CexIn.drop 2)) =
      .ok (.arr
        [.obj [(lc "name", .str (lc "a")), (lc "description", .str (lc "d")),
               (lc "endpoints", .arr []), (lc "build_in_house", .bool true),
               (lc "reason", .str (lc "r"))],
         .num (lc "7"),
         .obj [(lc "name", .str (lc "x"))]]) ∧
    specOfObj [(lc "name", .str (lc "x"))] = none ∧
    (generate_masterplan (.ok c4CexIn)).markdown_content ≠ c4CexIn ∧
    (generate_masterplan (.ok c4CexIn)).markdown_content =
      lc "An error occurred while generating the masterplan: APISpec() argument after ** must be a mapping, not int" :=
  ⟨rfl, rfl, rfl, by decide, rfl⟩

/-- Claim C4 (amended): when the located and parsed array consists of
objects and at least one of them is missing a required field (or otherwise
fails validation), the whole extraction fails with a `ValidationError` and
`generate_masterplan` returns the full original text with an empty spec
list — no partial extraction of the valid records. -/
theorem C4_missing_field_all_or_nothing (t : List Char) (j : Nat) (l : List JVal)
    (hloc : searchNameArray t = some j)
    (hparse : json_loads (bracketSlice (t.drop j)) = .ok (.arr l))
    (hobj : ∀ v ∈ l, ∃ kvs, v = .obj kvs)
    (hbad : ∃ v ∈ l, ∃ kvs, v = .obj kvs ∧ specOfObj kvs = none) :
    generate_masterplan (.ok t) = ⟨t, [], none⟩ := by
  obtain ⟨m, hm⟩ := coerceList_validation_failure l hobj hbad
  refine valueErrorDegrade t (.validationError m) ?_ rfl
  simp [masterplanExtract, hloc, hparse, iterCoerce, hm, Bind.bind, Except.bind]

/-- Witness input for C4: the same array with only objects, the second of
which is missing all fields but `name`. -/
def c4WitIn : List Char :=
  lc "x [\x7b\"name\":\"a\",\"description\":\"d\",\"endpoints\":[],\"build_in_house\":true,\"reason\":\"r\"\x7d, \x7b\"name\":\"x\"\x7d]"

/-- Witness for C4: the valid first record is not kept. -/
theorem C4_witness : generate_masterplan (.ok c4WitIn) = ⟨c4WitIn, [], none⟩ :=
  C4_missing_field_all_or_nothing c4WitIn 2
    [.obj [(lc "name", .str (lc "a")), (lc "description", .str (lc "d")),
           (lc "endpoints", .arr []), (lc "build_in_house", .bool true),
           (lc "reason", .str (lc "r"))],
     .obj [(lc "name", .str (lc "x"))]]
    rfl rfl
    (by
      intro v hv
      rcases List.mem_cons.mp hv with rfl | hv2
      · exact ⟨_, rfl⟩
      · rcases List.mem_cons.mp hv2 with rfl | hv3
        · exact ⟨_, rfl⟩
        · exact absurd hv3 (List.not_mem_nil v))
    ⟨.obj [(lc "name", .str (lc "x"))],
     List.mem_cons_of_mem _ (List.mem_cons_self ..), _, rfl, rfl⟩

/-! ### Claim C3 -/

/-- Counterexample to claim C3 as stated: the input `"[]"` decodes to the
empty JSON list, which `generate_questions` returns as-is — an empty list. -/
theorem C3_counterexample : generate_questions (.ok (lc "[]")) = [] := rfl

/-- Claim C3 (amended): `generate_questions` never returns an empty list —
and never raises — except when the input decodes to the empty JSON list,
which is returned as-is.  In particular both placeholder paths and the
upstream-failure path are non-empty. -/
theorem C3_nonempty_unless_empty_json_list (u : Except PyErr (List Char))
    (h : ∀ t, u = .ok t → json_loads t ≠ .ok (.arr [])) :
    generate_questions u ≠ [] := by
  cases u with
  | error e => simp [generate_questions]
  | ok t =>
    have ht := h t rfl
    simp only [generate_questions, questionsBody]
    cases hj : json_loads t with
    | ok v =>
      cases v with
      | arr l =>
        cases l with
        | nil => exact absurd hj ht
        | cons a as => simp
      | null => simp
      | bool b => simp
      | num m => simp
      | str s => simp
      | obj kvs => simp
    | error e =>
      cases hl : (fallbackLines t).isEmpty
      · have hne : fallbackLines t ≠ [] := by simpa [List.isEmpty_iff] using hl
        simp [hl, hne]
      · simp [hl]

/-- Witness for C3 at an input that does not decode to the empty JSON list. -/
theorem C3_witness : generate_questions (.ok (lc "hi")) ≠ [] :=
  C3_nonempty_unless_empty_json_list (.ok (lc "hi"))
    (by
      intro t ht hc
      cases ht
      rw [show json_loads (lc "hi") = .error (.jsonDecodeError (lc "Expecting value")) from rfl] at hc
      exact Except.noConfusion hc)

/-! ### Claim C8 -/

/-- `splitNl` always yields at least one (possibly empty) line. -/
theorem splitNl_ne_nil (t : List Char) : splitNl t ≠ [] := by
  cases t with
  | nil => simp [splitNl]
  | cons c rest =>
    simp only [splitNl]
    split
    · simp
    · split <;> simp

/-- Apply a function to the last element of a list of lines. -/
def modLast (f : List Char → List Char) : List (List Char) → List (List Char)
  | [] => []
  | [x] => [f x]
  | x :: xs => x :: modLast f xs

/-- Head-unfolding of `splitNl` in terms of the head and tail of the
recursive split. -/
theorem splitNl_cons (c : Char) (t : List Char) :
    splitNl (c :: t) =
      if c = '\n' then [] :: splitNl t
      else (c :: (splitNl t).headI) :: (splitNl t).tail := by
  simp only [splitNl]
  by_cases hc : c = '\n'
  · simp [hc]
  · simp only [hc, if_false]
    cases hs : splitNl t with
    | nil => exact absurd hs (splitNl_ne_nil t)
    | cons x xs => simp

/-- Appending one character only extends the last line — or opens a fresh
empty one when it is a newline. -/
theorem splitNl_append_one (u : List Char) (c : Char) :
    splitNl (u ++ [c]) =
      if c = '\n' then splitNl u ++ [[]] else modLast (· ++ [c]) (splitNl u) := by
  induction u with
  | nil =>
    by_cases hc : c = '\n'
    · subst hc; simp [splitNl]
    · simp [splitNl, hc, modLast]
  | cons a u ih =>
    rw [List.cons_append, splitNl_cons, splitNl_cons (t := u), ih]
    by_cases ha : a = '\n'
    · by_cases hc : c = '\n'
      · simp [ha, hc]
      · simp only [ha, if_pos rfl, if_neg hc]
        cases hs : splitNl u with
        | nil => exact absurd hs (splitNl_ne_nil u)
        | cons x xs => simp [modLast]
    · by_cases hc : c = '\n'
      · simp only [if_neg ha, if_pos hc]
        cases hs : splitNl u with
        | nil => exact absurd hs (splitNl_ne_nil u)
        | cons x xs => simp
      · simp only [if_neg ha, if_neg hc]
        cases hs : splitNl u with
        | nil => exact absurd hs (splitNl_ne_nil u)
        | cons x xs =>
          cases xs with
          | nil => simp [modLast]
          | cons y ys => simp [modLast]

/-- Mapping a function that cannot see the modification erases `modLast`. -/
theorem map_modLast (g f : List Char → List Char) (hgf : ∀ x, g (f x) = g x) :
    ∀ L : List (List Char), (modLast f L).map g = L.map g := by
  intro L
  induction L with
  | nil => rfl
  | cons x xs ih =>
    cases xs with
    | nil => simp [modLast, hgf]
    | cons y ys =>
      simp only [modLast, List.map_cons]
      rw [show (modLast f (y :: ys)).map g = (y :: ys).map g from ih]
      simp

/-- Stripping ignores a leading whitespace character. -/
theorem pyStrip_cons_ws (c : Char) (t : List Char) (hc : pyWs c = true) :
    pyStrip (c :: t) = pyStrip t := by
  simp [pyStrip, List.dropWhile_cons, hc]

/-- `dropWhile` over an append when the first part is not exhausted. -/
theorem dropWhile_append_ne (p : Char → Bool) (l1 l2 : List Char)
    (h : l1.dropWhile p ≠ []) :
    (l1 ++ l2).dropWhile p = l1.dropWhile p ++ l2 := by
  induction l1 with
  | nil => simp at h
  | cons a t ih =>
    by_cases hp : p a
    · simp only [List.cons_append, List.dropWhile_cons, hp, if_true] at h ⊢
      exact ih h
    · simp [List.dropWhile_cons, hp]

/-- `dropWhile` over an append when the first part is exhausted. -/
theorem dropWhile_append_nil (p : Char → Bool) (l1 l2 : List Char)
    (h : l1.dropWhile p = []) :
    (l1 ++ l2).dropWhile p = l2.dropWhile p := by
  induction l1 with
  | nil => simp
  | cons a t ih =>
    simp only [List.dropWhile_cons] at h
    by_cases hp : p a
    · simp only [List.cons_append, List.dropWhile_cons, hp, if_true]
      exact ih (by simpa [hp] using h)
    · simp [hp] at h

/-- Stripping ignores a trailing whitespace character. -/
theorem pyStrip_append_ws (t : List Char) (c : Char) (hc : pyWs c = true) :
    pyStrip (t ++ [c]) = pyStrip t := by
  by_cases hd : t.dropWhile pyWs = []
  · have h1 : (t ++ [c]).dropWhile pyWs = [] := by
      rw [dropWhile_append_nil _ _ _ hd]
      simp [List.dropWhile_cons, hc]
    simp [pyStrip, h1, hd]
  · rw [pyStrip, dropWhile_append_ne _ _ _ hd, List.reverse_append]
    simp only [List.reverse_cons, List.reverse_nil, List.nil_append, List.singleton_append,
      List.dropWhile_cons, hc, if_true]
    rfl

/-- The lines the spec's fallback clause describes: the lines of the input,
each trimmed, keeping in order those that are non-empty, do not start with
`[` and do not end with `]`.  (The code strips the whole response before
splitting; the lemmas below show the two agree.) -/
def specFallbackLines (t : List Char) : List (List Char) :=
  ((splitNl t).map pyStrip).filter keepLine

/-- A trailing whitespace character does not change the processed lines. -/
theorem specFallbackLines_append_ws (t : List Char) (c : Char) (hc : pyWs c = true) :
    specFallbackLines (t ++ [c]) = specFallbackLines t := by
  by_cases hnl : c = '\n'
  · subst hnl
    simp [specFallbackLines, splitNl_append_one, keepLine, pyStrip]
  · simp only [specFallbackLines, splitNl_append_one, if_neg hnl]
    rw [map_modLast pyStrip (· ++ [c]) (fun x => pyStrip_append_ws x c hc)]

/-- A whole trailing whitespace run does not change the processed lines. -/
theorem specFallbackLines_append_allws (w : List Char) :
    ∀ u, (∀ c ∈ w, pyWs c = true) → specFallbackLines (u ++ w) = specFallbackLines u := by
  induction w with
  | nil => intro u _; simp
  | cons c w ih =>
    intro u hw
    rw [show u ++ c :: w = (u ++ [c]) ++ w by simp,
        ih (u ++ [c]) (fun d hd => hw d (List.mem_cons_of_mem _ hd)),
        specFallbackLines_append_ws u c (hw c (List.mem_cons_self ..))]

/-- A leading whitespace character does not change the processed lines. -/
theorem specFallbackLines_cons_ws (c : Char) (t : List Char) (hc : pyWs c = true) :
    specFallbackLines (c :: t) = specFallbackLines t := by
  by_cases hnl : c = '\n'
  · subst hnl
    simp [specFallbackLines, splitNl, keepLine, pyStrip]
  · simp only [specFallbackLines, splitNl, if_neg hnl]
    cases hs : splitNl t with
    | nil => exact absurd hs (splitNl_ne_nil t)
    | cons x xs => simp [pyStrip_cons_ws c x hc]

/-- A leading whitespace run does not change the processed lines. -/
theorem specFallbackLines_dropWhile (t : List Char) :
    specFallbackLines (t.dropWhile pyWs) = specFallbackLines t := by
  induction t with
  | nil => rfl
  | cons c rest ih =>
    by_cases hc : pyWs c
    · rw [List.dropWhile_cons, if_pos hc, ih, specFallbackLines_cons_ws c rest hc]
    · rw [List.dropWhile_cons, if_neg hc]

/-- The code's fallback (strip the whole response first, then split and trim)
computes the spec's lines (split the raw response, then trim). -/
theorem fallbackLines_eq_spec (t : List Char) : fallbackLines t = specFallbackLines t := by
  have hsplit : ((t.dropWhile pyWs).reverse.dropWhile pyWs).reverse ++
      ((t.dropWhile pyWs).reverse.takeWhile pyWs).reverse = t.dropWhile pyWs := by
    rw [← List.reverse_append, List.takeWhile_append_dropWhile, List.reverse_reverse]
  calc fallbackLines t
      = specFallbackLines (((t.dropWhile pyWs).reverse.dropWhile pyWs).reverse) := rfl
    _ = specFallbackLines (((t.dropWhile pyWs).reverse.dropWhile pyWs).reverse ++
          ((t.dropWhile pyWs).reverse.takeWhile pyWs).reverse) :=
        (specFallbackLines_append_allws _ _
          (fun d hd => List.mem_takeWhile_imp (List.mem_reverse.mp hd))).symm
    _ = specFallbackLines (t.dropWhile pyWs) := congrArg specFallbackLines hsplit
    _ = specFallbackLines t := specFallbackLines_dropWhile t

/-- Counterexample to claim C8 as stated: on the empty input, JSON parsing
fails and no qualifying line exists, yet the result is the placeholder list,
not the empty line list the claim calls for. -/
theorem C8_counterexample :
    json_loads (lc "") = .error (.jsonDecodeError (lc "Expecting value")) ∧
    specFallbackLines (lc "") = [] ∧
    generate_questions (.ok (lc "")) =
      [.str (lc "Could not generate questions. Please try again.")] ∧
    generate_questions (.ok (lc "")) ≠ (specFallbackLines (lc "")).map JVal.str :=
  ⟨rfl, rfl, rfl, by
    intro hcon
    have h2 : ([.str (lc "Could not generate questions. Please try again.")] : List JVal) =
        [] := hcon
    exact List.noConfusion h2⟩

/-- Claim C8 (amended): when JSON parsing fails, `generate_questions`
returns, in original order, exactly those lines of the input that after
trimming are non-empty, do not start with `[` and do not end with `]`, each
in trimmed form — provided at least one such line exists; with none, it
returns the fixed placeholder list instead. -/
theorem C8_line_fallback (t : List Char) (e : PyErr)
    (h : json_loads t = .error e) :
    generate_questions (.ok t) =
      if specFallbackLines t = []
      then [.str (lc "Could not generate questions. Please try again.")]
      else (specFallbackLines t).map .str := by
  simp only [generate_questions, questionsBody, h, fallbackLines_eq_spec, List.isEmpty_iff]

/-- Witness for C8 at a concrete non-JSON input with delimiter-looking and
blank lines. -/
theorem C8_witness :
    json_loads (lc "  q1?\n[\nq2?  \nx]\n\n") =
      .error (.jsonDecodeError (lc "Expecting value")) ∧
    generate_questions (.ok (lc "  q1?\n[\nq2?  \nx]\n\n")) =
      [.str (lc "q1?"), .str (lc "q2?")] :=
  ⟨rfl, C8_line_fallback (lc "  q1?\n[\nq2?  \nx]\n\n") _ rfl⟩

/-! ### Claim C9 -/

/-- Claim C9: in both prompt renderings, the mission statement is always
interpolated as given, and — per field, independently of the other two —
any optional field that is absent (`None`) or empty is substituted as the
literal text `Not specified` directly after its label.  The sentinel is
applied before interpolation, in the very string handed to the model call;
the last two parts record that the rendered prompt is exactly what is sent
to the collaborator. -/
theorem C9_sentinel_substitution (m : List Char) (c i b : Option (List Char)) :
    (∃ p q, renderQuestionsPrompt m c i b = p ++ (labelMission ++ (m ++ q))) ∧
    (∃ p q, renderMasterplanPrompt m c i b = p ++ (labelMission ++ (m ++ q))) ∧
    (c = none ∨ c = some [] →
      (∃ p q, renderQuestionsPrompt m c i b =
        p ++ (labelCompany ++ (lc "Not specified" ++ q))) ∧
      (∃ p q, renderMasterplanPrompt m c i b =
        p ++ (labelCompany ++ (lc "Not specified" ++ q)))) ∧
    (i = none ∨ i = some [] →
      (∃ p q, renderQuestionsPrompt m c i b =
        p ++ (labelIndustry ++ (lc "Not specified" ++ q))) ∧
      (∃ p q, renderMasterplanPrompt m c i b =
        p ++ (labelIndustry ++ (lc "Not specified" ++ q)))) ∧
    (b = none ∨ b = some [] →
      (∃ p q, renderQuestionsPrompt m c i b =
        p ++ (labelSize ++ (lc "Not specified" ++ q))) ∧
      (∃ p q, renderMasterplanPrompt m c i b =
        p ++ (labelSize ++ (lc "Not specified" ++ q)))) ∧
    (∀ llm, generateQuestionsWith llm m c i b =
      generate_questions (llm (renderQuestionsPrompt m c i b))) ∧
    (∀ llm, generateMasterplanWith llm m c i b =
      generate_masterplan (llm (renderMasterplanPrompt m c i b))) := by
  have hq : renderQuestionsPrompt m c i b =
      questionsIntro ++ (labelMission ++ (m ++ (labelCompany ++ (orNotSpecified c ++
        (labelIndustry ++ (orNotSpecified i ++ (labelSize ++ (orNotSpecified b ++
          (questionsOutro ++ []))))))))) := rfl
  have hp : renderMasterplanPrompt m c i b =
      masterplanIntro ++ (labelMission ++ (m ++ (labelCompany ++ (orNotSpecified c ++
        (labelIndustry ++ (orNotSpecified i ++ (labelSize ++ (orNotSpecified b ++
          (masterplanOutro ++ []))))))))) := rfl
  refine ⟨⟨questionsIntro, _, hq⟩, ⟨masterplanIntro, _, hp⟩, ?_, ?_, ?_,
    fun llm => rfl, fun llm => rfl⟩
  · intro hc
    have hc2 : orNotSpecified c = lc "Not specified" := by rcases hc with rfl | rfl <;> rfl
    rw [hc2] at hq hp
    exact ⟨⟨questionsIntro ++ (labelMission ++ m),
      labelIndustry ++ (orNotSpecified i ++ (labelSize ++ (orNotSpecified b ++
        (questionsOutro ++ [])))), by rw [hq]; simp only [List.append_assoc]⟩,
      ⟨masterplanIntro ++ (labelMission ++ m),
      labelIndustry ++ (orNotSpecified i ++ (labelSize ++ (orNotSpecified b ++
        (masterplanOutro ++ [])))), by rw [hp]; simp only [List.append_assoc]⟩⟩
  · intro hi
    have hi2 : orNotSpecified i = lc "Not specified" := by rcases hi with rfl | rfl <;> rfl
    rw [hi2] at hq hp
    exact ⟨⟨questionsIntro ++ (labelMission ++ (m ++ (labelCompany ++ orNotSpecified c))),
      labelSize ++ (orNotSpecified b ++ (questionsOutro ++ [])),
      by rw [hq]; simp only [List.append_assoc]⟩,
      ⟨masterplanIntro ++ (labelMission ++ (m ++ (labelCompany ++ orNotSpecified c))),
      labelSize ++ (orNotSpecified b ++ (masterplanOutro ++ [])),
      by rw [hp]; simp only [List.append_assoc]⟩⟩
  · intro hb
    have hb2 : orNotSpecified b = lc "Not specified" := by rcases hb with rfl | rfl <;> rfl
    rw [hb2] at hq hp
    exact ⟨⟨questionsIntro ++ (labelMission ++ (m ++ (labelCompany ++ (orNotSpecified c ++
        (labelIndustry ++ orNotSpecified i))))),
      questionsOutro ++ [], by rw [hq]; simp only [List.append_assoc]⟩,
      ⟨masterplanIntro ++ (labelMission ++ (m ++ (labelCompany ++ (orNotSpecified c ++
        (labelIndustry ++ orNotSpecified i))))),
      masterplanOutro ++ [], by rw [hp]; simp only [List.append_assoc]⟩⟩

/-- Witness for C9 at a mixed concrete input: the company name is given
(`"Acme"`), the industry is absent and the business size is empty, and each
absent/empty field — and only those — is rendered as the sentinel. -/
theorem C9_witness :
    ((none : Option (List Char)) = none ∨ (none : Option (List Char)) = some []) ∧
    ((some [] : Option (List Char)) = none ∨ (some [] : Option (List Char)) = some []) ∧
    (∃ p q, renderQuestionsPrompt (lc "Sell pizza") (some (lc "Acme")) none (some []) =
      p ++ (labelMission ++ (lc "Sell pizza" ++ q))) ∧
    (∃ p q, renderQuestionsPrompt (lc "Sell pizza") (some (lc "Acme")) none (some []) =
      p ++ (labelIndustry ++ (lc "Not specified" ++ q))) ∧
    (∃ p q, renderQuestionsPrompt (lc "Sell pizza") (some (lc "Acme")) none (some []) =
      p ++ (labelSize ++ (lc "Not specified" ++ q))) ∧
    (∃ p q, renderMasterplanPrompt (lc "Sell pizza") (some (lc "Acme")) none (some []) =
      p ++ (labelMission ++ (lc "Sell pizza" ++ q))) ∧
    (∃ p q, renderMasterplanPrompt (lc "Sell pizza") (some (lc "Acme")) none (some []) =
      p ++ (labelIndustry ++ (lc "Not specified" ++ q))) ∧
    (∃ p q, renderMasterplanPrompt (lc "Sell pizza") (some (lc "Acme")) none (some []) =
      p ++ (labelSize ++ (lc "Not specified" ++ q))) ∧
    (∀ llm, generateQuestionsWith llm (lc "Sell pizza") (some (lc "Acme")) none (some []) =
      generate_questions (llm
        (renderQuestionsPrompt (lc "Sell pizza") (some (lc "Acme")) none (some [])))) ∧
    (∀ llm, generateMasterplanWith llm (lc "Sell pizza") (some (lc "Acme")) none (some []) =
      generate_masterplan (llm
        (renderMasterplanPrompt (lc "Sell pizza") (some (lc "Acme")) none (some [])))) :=
  have h := C9_sentinel_substitution (lc "Sell pizza") (some (lc "Acme")) none (some [])
  ⟨Or.inl rfl, Or.inr rfl, h.1,
   (h.2.2.2.1 (Or.inl rfl)).1, (h.2.2.2.2.1 (Or.inr rfl)).1, h.2.1,
   (h.2.2.2.1 (Or.inl rfl)).2, (h.2.2.2.2.1 (Or.inr rfl)).2,
   h.2.2.2.2.2.1, h.2.2.2.2.2.2⟩

/-! ### Claim C1: serialised specification arrays

The claim quantifies over inputs `<markdown><json-array>` where the array is
well formed with the key `name` first in each record.  The array text is
represented by a canonical compact serialiser (`json.dumps`-style with
`(',', ':')` separators); endpoint dictionaries carry string values, the
shape of the spec's `EndpointDescriptor` data model. -/

/-- A specification record of the shape the masterplan prompt requests:
endpoint dictionaries with string values (path/method/purpose). -/
structure SpecRec where
  name : List Char
  description : List Char
  endpoints : List (List (List Char × List Char))
  build_in_house : Bool
  reason : List Char

/-- Lower-case hexadecimal digit character for `n < 16`. -/
def hexDig (n : Nat) : Char :=
  if n < 10 then Char.ofNat ('0'.toNat + n) else Char.ofNat ('a'.toNat + (n - 10))

/-- JSON escape of one character: quote and backslash get escaped, control
characters become `\u00XX`, everything else stands for itself. -/
def escChar (c : Char) : List Char :=
  if c = '"' then ['\\', '"']
  else if c = '\\' then ['\\', '\\']
  else if c.toNat < 32 then ['\\', 'u', '0', '0', hexDig (c.toNat / 16), hexDig (c.toNat % 16)]
  else [c]

/-- JSON escape of a string's characters. -/
def escStr : List Char → List Char
  | [] => []
  | c :: rest => escChar c ++ escStr rest

/-- A JSON string literal. -/
def serStr (s : List Char) : List Char := '"' :: (escStr s ++ ['"'])

/-- One `"key":"value"` member with a string value. -/
def serStrPair (kv : List Char × List Char) : List Char :=
  serStr kv.1 ++ (':' :: serStr kv.2)

/-- Comma-separated members of an endpoint dictionary. -/
def serEPFields : List (List Char × List Char) → List Char
  | [] => []
  | [kv] => serStrPair kv
  | kv :: rest => serStrPair kv ++ (',' :: serEPFields rest)

/-- One endpoint dictionary. -/
def serEP (ep : List (List Char × List Char)) : List Char :=
  '{' :: (serEPFields ep ++ ['}'])

/-- Comma-separated endpoint dictionaries. -/
def serEPList : List (List (List Char × List Char)) → List Char
  | [] => []
  | [ep] => serEP ep
  | ep :: rest => serEP ep ++ (',' :: serEPList rest)

/-- The `endpoints` array. -/
def serEndpoints (eps : List (List (List Char × List Char))) : List Char :=
  '[' :: (serEPList eps ++ [']'])

/-- JSON booleans. -/
def serBool : Bool → List Char
  | true => lc "true"
  | false => lc "false"

/-- The members of one serialised record, `name` first, in the order the
masterplan prompt requests. -/
def serRecFields (r : SpecRec) : List Char :=
  serStr (lc "name") ++ (':' :: (serStr r.name ++ (',' ::
    (serStr (lc "description") ++ (':' :: (serStr r.description ++ (',' ::
    (serStr (lc "endpoints") ++ (':' :: (serEndpoints r.endpoints ++ (',' ::
    (serStr (lc "build_in_house") ++ (':' :: (serBool r.build_in_house ++ (',' ::
    (serStr (lc "reason") ++ (':' :: serStr r.reason)))))))))))))))))

/-- One serialised record. -/
def serRec (r : SpecRec) : List Char := '{' :: (serRecFields r ++ ['}'])

/-- Comma-separated records. -/
def serRecList : List SpecRec → List Char
  | [] => []
  | [r] => serRec r
  | r :: rest => serRec r ++ (',' :: serRecList rest)

/-- The whole serialised specification array. -/
def serSpecs (specs : List SpecRec) : List Char := '[' :: (serRecList specs ++ [']'])

/-- The decoded value of an endpoint dictionary. -/
def epToJVal (ep : List (List Char × List Char)) : JVal :=
  .obj (ep.map (fun kv => (kv.1, .str kv.2)))

/-- The decoded value of a record. -/
def recToJVal (r : SpecRec) : JVal :=
  .obj [(lc "name", .str r.name), (lc "description", .str r.description),
        (lc "endpoints", .arr (r.endpoints.map epToJVal)),
        (lc "build_in_house", .bool r.build_in_house),
        (lc "reason", .str r.reason)]

/-- The `APISpec` a record coerces to. -/
def recToAPISpec (r : SpecRec) : APISpec :=
  ⟨r.name, r.description,
   r.endpoints.map (fun ep => ep.map (fun kv => (kv.1, JVal.str kv.2))),
   r.build_in_house, r.reason⟩

/-- Fuel needed by `parsePairs` for the members of an endpoint dictionary. -/
def costEPFields (ep : List (List Char × List Char)) : Nat := 2 * ep.length

/-- Fuel needed by `parseVal` for one endpoint dictionary. -/
def costEP (ep : List (List Char × List Char)) : Nat := 2 * ep.length + 1

/-- Fuel needed by `parseItems` for a nonempty endpoint list. -/
def costEPL : List (List (List Char × List Char)) → Nat
  | [] => 0
  | [ep] => costEP ep + 1
  | ep :: rest => costEP ep + costEPL rest + 1

/-- Fuel needed by `parseVal` for the `endpoints` array. -/
def costEndpoints (eps : List (List (List Char × List Char))) : Nat :=
  match eps with
  | [] => 1
  | eps => costEPL eps + 1

/-- Fuel needed by `parseVal` for one serialised record. -/
def costRec (r : SpecRec) : Nat := costEndpoints r.endpoints + 10

/-- Fuel needed by `parseItems` for a nonempty record list. -/
def costRecL : List SpecRec → Nat
  | [] => 0
  | [r] => costRec r + 1
  | r :: rest => costRec r + costRecL rest + 1

/-- No string content of an endpoint dictionary contains `]`. -/
def NoRBEP (ep : List (List Char × List Char)) : Prop :=
  ∀ kv ∈ ep, ']' ∉ kv.1 ∧ ']' ∉ kv.2

/-- No string content of a record contains `]` (the bracket-balance scan
counts bracket characters inside string literals too, so a `]` in a string
truncates the array early — see the counterexample). -/
def NoRBRec (r : SpecRec) : Prop :=
  ']' ∉ r.name ∧ ']' ∉ r.description ∧ ']' ∉ r.reason ∧ ∀ ep ∈ r.endpoints, NoRBEP ep

/-- No string content anywhere in the array contains `]`. -/
def NoRBSpecs (specs : List SpecRec) : Prop := ∀ r ∈ specs, NoRBRec r

/-- Hexadecimal digit characters decode to their value. -/
theorem hexDigVal_hexDig (n : Nat) (h : n < 16) : hexDigVal (hexDig n) = some n := by
  interval_cases n <;> decide

/-- Character codes are valid scalar values. -/
theorem char_toNat_valid (c : Char) : Nat.isValidChar c.toNat := c.valid

/-- `scalarChar` inverts `Char.toNat`. -/
theorem scalarChar_toNat (c : Char) : scalarChar c.toNat = c := by
  simp [scalarChar, char_toNat_valid c, Char.ofNat_toNat]

/-- A character code is never a high surrogate. -/
theorem char_not_high_surrogate (c : Char) :
    (decide (0xD800 ≤ c.toNat) && decide (c.toNat < 0xDC00)) = false := by
  rcases char_toNat_valid c with h | ⟨h1, _⟩ <;> simp <;> omega

/-- Surrogate-pair combination is the identity on plain character codes. -/
theorem combineUnitsF_codes (s : List Char) : ∀ fu, s.length ≤ fu →
    combineUnitsF fu (s.map Char.toNat) = s := by
  induction s with
  | nil => intro fu _; cases fu <;> rfl
  | cons c rest ih =>
    intro fu hfu
    cases fu with
    | zero => simp at hfu
    | succ fu =>
      simp only [List.map_cons, combineUnitsF, char_not_high_surrogate c, Bool.false_eq_true,
        if_false, scalarChar_toNat]
      rw [ih fu (by simpa using hfu)]

/-- `combineUnits` is the identity on plain character codes. -/
theorem combineUnits_codes (s : List Char) : combineUnits (s.map Char.toNat) = s := by
  have := combineUnitsF_codes s (s.map Char.toNat).length (by simp)
  simpa [combineUnits] using this

/-- Scanning one escaped character prepends its code unit. -/
theorem strUnits_escChar (c : Char) (rest : List Char) (us : List Nat) (r : List Char)
    (h : strUnits rest = some (us, r)) :
    strUnits (escChar c ++ rest) = some (c.toNat :: us, r) := by
  by_cases hq : c = '"'
  · subst hq; simp [escChar, strUnits, escCode, h]
  · by_cases hb : c = '\\'
    · subst hb; simp [escChar, strUnits, escCode, h]
    · by_cases hctl : c.toNat < 32
      · simp only [escChar, if_neg hq, if_neg hb, if_pos hctl]
        have h1 : hexDigVal (hexDig (c.toNat / 16)) = some (c.toNat / 16) :=
          hexDigVal_hexDig _ (by omega)
        have h2 : hexDigVal (hexDig (c.toNat % 16)) = some (c.toNat % 16) :=
          hexDigVal_hexDig _ (Nat.mod_lt _ (by omega))
        have h0 : hexDigVal '0' = some 0 := by decide
        have hv : ((0 * 16 + 0) * 16 + c.toNat / 16) * 16 + c.toNat % 16 = c.toNat := by omega
        simp [strUnits, hexQuad, h0, h1, h2, hv, h]
        omega
      · simp only [escChar, if_neg hq, if_neg hb, if_neg hctl, List.singleton_append]
        rw [strUnits.eq_def]
        simp [hq, hb, hctl, h]

/-- Scanning an escaped string body stops at the closing quote. -/
theorem strUnits_escStr (s : List Char) : ∀ rest,
    strUnits (escStr s ++ ('"' :: rest)) = some (s.map Char.toNat, rest) := by
  induction s with
  | nil => intro rest; simp [escStr, strUnits.eq_def]
  | cons c s ih =>
    intro rest
    rw [show escStr (c :: s) ++ ('"' :: rest) = escChar c ++ (escStr s ++ ('"' :: rest)) by
      simp [escStr, List.append_assoc]]
    rw [strUnits_escChar c _ _ _ (ih rest)]
    simp

/-- The string-body roundtrip. -/
theorem strBody_escStr (s rest : List Char) :
    strBody (escStr s ++ ('"' :: rest)) = some (s, rest) := by
  simp [strBody, strUnits_escStr, combineUnits_codes]

/-- The serialised-string shape used to reassociate appends. -/
theorem serStr_shape (s t : List Char) :
    serStr s ++ t = '"' :: (escStr s ++ ('"' :: t)) := by
  simp [serStr, List.append_assoc]

/-- Unfolding of `parseVal` at an opening quote. -/
theorem parseVal_quote (fu : Nat) (r : List Char) :
    parseVal (fu + 1) ('"' :: r) =
      match strBody r with
      | some (s, r2) => some (.str s, r2)
      | none => none := rfl

/-- A serialised string parses as a string value (one unit of fuel). -/
theorem parseVal_serStr (s : List Char) (fu : Nat) (rest : List Char) :
    parseVal (fu + 1) (serStr s ++ rest) = some (.str s, rest) := by
  rw [serStr_shape, parseVal_quote, strBody_escStr]

/-- A serialised boolean parses as a boolean (one unit of fuel). -/
theorem parseVal_serBool (b : Bool) (fu : Nat) (rest : List Char) :
    parseVal (fu + 1) (serBool b ++ rest) = some (.bool b, rest) := by
  cases b
  · exact rfl
  · exact rfl

/-- `skipJson` ignores a non-whitespace head. -/
theorem skipJson_cons (c : Char) (X : List Char) (h : jsonWs c = false) :
    skipJson (c :: X) = c :: X := by simp [skipJson, List.dropWhile_cons, h]

/-- Serialised strings start with a quote, so `skipJson` leaves them alone. -/
theorem skipJson_serStr (s t : List Char) : skipJson (serStr s ++ t) = serStr s ++ t := by
  rw [serStr_shape]
  exact skipJson_cons _ _ (by decide)

/-- Serialised booleans start with a letter, so `skipJson` leaves them alone. -/
theorem skipJson_serBool (b : Bool) (t : List Char) :
    skipJson (serBool b ++ t) = serBool b ++ t := by
  cases b
  · exact skipJson_cons 'f' _ (by decide)
  · exact skipJson_cons 't' _ (by decide)

/-- `skipJson` identities at the concrete punctuation heads. -/
theorem skipJson_colon (X : List Char) : skipJson (':' :: X) = ':' :: X :=
  skipJson_cons _ _ (by decide)

/-- `skipJson` identity at a comma. -/
theorem skipJson_comma (X : List Char) : skipJson (',' :: X) = ',' :: X :=
  skipJson_cons _ _ (by decide)

/-- `skipJson` identity at a closing brace. -/
theorem skipJson_rbrace (X : List Char) : skipJson ('}' :: X) = '}' :: X :=
  skipJson_cons _ _ (by decide)

/-- `skipJson` identity at a closing bracket. -/
theorem skipJson_rbracket (X : List Char) : skipJson (']' :: X) = ']' :: X :=
  skipJson_cons _ _ (by decide)

/-- `skipJson` identity at an opening brace. -/
theorem skipJson_lbrace (X : List Char) : skipJson ('{' :: X) = '{' :: X :=
  skipJson_cons _ _ (by decide)

/-- `skipJson` identity at an opening bracket. -/
theorem skipJson_lbracket (X : List Char) : skipJson ('[' :: X) = '[' :: X :=
  skipJson_cons _ _ (by decide)

/-- A final `"key": value` member: `parsePairs` returns it and stops at the
closing brace. -/
theorem parsePairs_one (k vtext : List Char) (v : JVal) (rest : List Char) (vc fu : Nat)
    (hval : ∀ g r2, parseVal (g + vc) (vtext ++ r2) = some (v, r2))
    (hskipv : ∀ t, skipJson (vtext ++ t) = vtext ++ t) :
    parsePairs (fu + (vc + 1)) (serStr k ++ (':' :: (vtext ++ ('}' :: rest)))) =
      some ([(k, v)], rest) := by
  rw [show fu + (vc + 1) = (fu + vc) + 1 from by omega, serStr_shape, parsePairs.eq_def]
  simp only [strBody_escStr, skipJson_colon, hskipv, hval, skipJson_rbrace]

/-- A `"key": value` member followed by further members. -/
theorem parsePairs_more (k vtext M : List Char) (v : JVal)
    (ms : List (List Char × JVal)) (rest : List Char) (vc mc fu : Nat)
    (hval : ∀ g r2, parseVal (g + vc) (vtext ++ r2) = some (v, r2))
    (hskipv : ∀ t, skipJson (vtext ++ t) = vtext ++ t)
    (hskipM : skipJson M = M)
    (hms : ∀ g, parsePairs (g + mc) M = some (ms, rest)) :
    parsePairs (fu + (vc + mc + 1)) (serStr k ++ (':' :: (vtext ++ (',' :: M)))) =
      some ((k, v) :: ms, rest) := by
  rw [show fu + (vc + mc + 1) = ((fu + mc) + vc) + 1 from by omega, serStr_shape,
    parsePairs.eq_def]
  simp only [strBody_escStr, skipJson_colon, hskipv, hval, skipJson_comma, hskipM]
  rw [show fu + mc + vc = (fu + vc) + mc from by omega, hms]

/-- A final array item: `parseItems` returns it and stops at the bracket. -/
theorem parseItems_one (vtext : List Char) (v : JVal) (rest : List Char) (vc fu : Nat)
    (hval : ∀ g r2, parseVal (g + vc) (vtext ++ r2) = some (v, r2)) :
    parseItems (fu + (vc + 1)) (vtext ++ (']' :: rest)) = some ([v], rest) := by
  rw [show fu + (vc + 1) = (fu + vc) + 1 from by omega, parseItems.eq_def]
  simp only [hval, skipJson_rbracket]

/-- An array item followed by further items. -/
theorem parseItems_more (vtext M : List Char) (v : JVal) (vs : List JVal)
    (rest : List Char) (vc mc fu : Nat)
    (hval : ∀ g r2, parseVal (g + vc) (vtext ++ r2) = some (v, r2))
    (hskipM : skipJson M = M)
    (hms : ∀ g, parseItems (g + mc) M = some (vs, rest)) :
    parseItems (fu + (vc + mc + 1)) (vtext ++ (',' :: M)) = some (v :: vs, rest) := by
  rw [show fu + (vc + mc + 1) = ((fu + mc) + vc) + 1 from by omega, parseItems.eq_def]
  simp only [hval, skipJson_comma, hskipM]
  rw [show fu + mc + vc = (fu + vc) + mc from by omega, hms]

/-- Reassociation shape of a serialised member. -/
theorem serStrPair_shape (kv : List Char × List Char) (t : List Char) :
    serStrPair kv ++ t = serStr kv.1 ++ (':' :: (serStr kv.2 ++ t)) := by
  simp [serStrPair, List.append_assoc]

/-- Endpoint members start with a quote. -/
theorem serEPFields_head (kv : List Char × List Char)
    (rest : List (List Char × List Char)) :
    ∃ X, serEPFields (kv :: rest) = '"' :: X := by
  cases rest with
  | nil =>
    refine ⟨escStr kv.1 ++ ('"' :: (':' :: serStr kv.2)), ?_⟩
    show serStrPair kv = _
    rw [serStrPair]
    rw [serStr_shape]
  | cons kv2 rest2 =>
    refine ⟨escStr kv.1 ++ ('"' :: (':' :: (serStr kv.2 ++ (',' :: serEPFields (kv2 :: rest2))))), ?_⟩
    show serStrPair kv ++ (',' :: serEPFields (kv2 :: rest2)) = _
    rw [serStrPair_shape, serStr_shape]

/-- `skipJson` identity on nonempty endpoint member text. -/
theorem skipJson_serEPFields (kv : List Char × List Char)
    (rest : List (List Char × List Char)) (t : List Char) :
    skipJson (serEPFields (kv :: rest) ++ t) = serEPFields (kv :: rest) ++ t := by
  obtain ⟨X, hX⟩ := serEPFields_head kv rest
  rw [hX, List.cons_append]
  exact skipJson_cons _ _ (by decide)

/-- The members of an endpoint dictionary parse to the string-valued pairs. -/
theorem parsePairs_serEPFields :
    ∀ (ep : List (List Char × List Char)), ep ≠ [] →
    ∀ fu rest, parsePairs (fu + costEPFields ep) (serEPFields ep ++ ('}' :: rest)) =
      some (ep.map (fun kv => (kv.1, JVal.str kv.2)), rest) := by
  intro ep
  induction ep with
  | nil => intro h; exact absurd rfl h
  | cons kv rest' ih =>
    intro _ fu rest
    cases rest' with
    | nil =>
      show parsePairs (fu + 2) (serStrPair kv ++ ('}' :: rest)) =
        some ([(kv.1, .str kv.2)], rest)
      rw [serStrPair_shape]
      exact parsePairs_one kv.1 (serStr kv.2) (.str kv.2) rest 1 fu
        (fun g r2 => parseVal_serStr _ g r2) (fun t => skipJson_serStr _ t)
    | cons kv2 rest2 =>
      rw [show serEPFields (kv :: kv2 :: rest2) ++ ('}' :: rest) =
          serStr kv.1 ++ (':' :: (serStr kv.2 ++ (',' ::
            (serEPFields (kv2 :: rest2) ++ ('}' :: rest))))) from by
        show (serStrPair kv ++ (',' :: serEPFields (kv2 :: rest2))) ++ ('}' :: rest) = _
        rw [List.append_assoc, serStrPair_shape]
        simp [List.append_assoc]]
      rw [show fu + costEPFields (kv :: kv2 :: rest2) =
          fu + (1 + costEPFields (kv2 :: rest2) + 1) from by
        simp [costEPFields]; omega]
      exact parsePairs_more kv.1 (serStr kv.2) _ (.str kv.2) _ rest 1
        (costEPFields (kv2 :: rest2)) fu
        (fun g r2 => parseVal_serStr _ g r2) (fun t => skipJson_serStr _ t)
        (skipJson_serEPFields kv2 rest2 ('}' :: rest))
        (fun g => ih (by simp) g rest)

/-- Reassociation shape of one endpoint dictionary. -/
theorem serEP_shape (ep : List (List Char × List Char)) (t : List Char) :
    serEP ep ++ t = '{' :: (serEPFields ep ++ ('}' :: t)) := by
  simp [serEP, List.append_assoc]

/-- `parseVal` at an opening brace whose object has members starting with a
quoted key. -/
theorem parseVal_lbrace_pairs (fu : Nat) (r X : List Char)
    (ms : List (List Char × JVal)) (r2 : List Char)
    (h : skipJson r = '"' :: X)
    (hp : parsePairs fu ('"' :: X) = some (ms, r2)) :
    parseVal (fu + 1) ('{' :: r) = some (.obj ms, r2) := by
  rw [parseVal.eq_def]
  simp only [reduceIte, reduceCtorEq, Char.reduceEq]
  rw [h]
  simp [hp]

/-- `parseVal` at an opening bracket whose array's first item is an object. -/
theorem parseVal_lbracket_items (fu : Nat) (r X : List Char)
    (l : List JVal) (r2 : List Char)
    (h : skipJson r = '{' :: X)
    (hp : parseItems fu ('{' :: X) = some (l, r2)) :
    parseVal (fu + 1) ('[' :: r) = some (.arr l, r2) := by
  rw [parseVal.eq_def]
  simp only [reduceIte, reduceCtorEq, Char.reduceEq]
  rw [h]
  simp [hp]

/-- One endpoint dictionary parses to its object value. -/
theorem parseVal_serEP (ep : List (List Char × List Char)) (fu : Nat) (rest : List Char) :
    parseVal (fu + costEP ep) (serEP ep ++ rest) = some (epToJVal ep, rest) := by
  cases ep with
  | nil =>
    show parseVal (fu + 1) ('{' :: ('}' :: rest)) = some (.obj [], rest)
    rfl
  | cons kv rest' =>
    rw [serEP_shape, show fu + costEP (kv :: rest') =
      (fu + costEPFields (kv :: rest')) + 1 from by simp [costEP, costEPFields]; omega]
    obtain ⟨X, hX⟩ := serEPFields_head kv rest'
    refine parseVal_lbrace_pairs _ _ (X ++ ('}' :: rest)) _ _ ?_ ?_
    · rw [hX, List.cons_append]
      exact skipJson_cons _ _ (by decide)
    · rw [← List.cons_append, ← hX]
      exact parsePairs_serEPFields (kv :: rest') (by simp) fu rest

/-- A nonempty serialised endpoint list starts with a brace. -/
theorem serEPList_head (ep : List (List Char × List Char))
    (rest' : List (List (List Char × List Char))) :
    ∃ X, serEPList (ep :: rest') = '{' :: X := by
  cases rest' with
  | nil => exact ⟨_, rfl⟩
  | cons ep2 rest2 =>
    refine ⟨(serEPFields ep ++ ['}']) ++ (',' :: serEPList (ep2 :: rest2)), ?_⟩
    show ('{' :: (serEPFields ep ++ ['}'])) ++ (',' :: serEPList (ep2 :: rest2)) = _
    rw [List.cons_append]

/-- `skipJson` identity on nonempty serialised endpoint lists. -/
theorem skipJson_serEPList (ep : List (List Char × List Char))
    (rest' : List (List (List Char × List Char))) (t : List Char) :
    skipJson (serEPList (ep :: rest') ++ t) = serEPList (ep :: rest') ++ t := by
  obtain ⟨X, hX⟩ := serEPList_head ep rest'
  rw [hX, List.cons_append]
  exact skipJson_lbrace _

/-- A nonempty endpoint list parses item by item. -/
theorem parseItems_serEPList :
    ∀ (eps : List (List (List Char × List Char))), eps ≠ [] →
    ∀ fu rest, parseItems (fu + costEPL eps) (serEPList eps ++ (']' :: rest)) =
      some (eps.map epToJVal, rest) := by
  intro eps
  induction eps with
  | nil => intro h; exact absurd rfl h
  | cons ep rest' ih =>
    intro _ fu rest
    cases rest' with
    | nil =>
      show parseItems (fu + (costEP ep + 1)) (serEP ep ++ (']' :: rest)) =
        some ([epToJVal ep], rest)
      exact parseItems_one (serEP ep) (epToJVal ep) rest (costEP ep) fu
        (fun g r2 => parseVal_serEP ep g r2)
    | cons ep2 rest2 =>
      rw [show serEPList (ep :: ep2 :: rest2) ++ (']' :: rest) =
          serEP ep ++ (',' :: (serEPList (ep2 :: rest2) ++ (']' :: rest))) from by
        show (serEP ep ++ (',' :: serEPList (ep2 :: rest2))) ++ (']' :: rest) = _
        simp [List.append_assoc]]
      rw [show fu + costEPL (ep :: ep2 :: rest2) =
          fu + (costEP ep + costEPL (ep2 :: rest2) + 1) from rfl]
      exact parseItems_more (serEP ep) _ (epToJVal ep) _ rest (costEP ep)
        (costEPL (ep2 :: rest2)) fu
        (fun g r2 => parseVal_serEP ep g r2)
        (skipJson_serEPList ep2 rest2 (']' :: rest))
        (fun g => ih (by simp) g rest)

/-- Reassociation shape of the `endpoints` array. -/
theorem serEndpoints_shape (eps : List (List (List Char × List Char))) (t : List Char) :
    serEndpoints eps ++ t = '[' :: (serEPList eps ++ (']' :: t)) := by
  simp [serEndpoints, List.append_assoc]

/-- The `endpoints` array parses to its decoded value. -/
theorem parseVal_serEndpoints (eps : List (List (List Char × List Char)))
    (fu : Nat) (rest : List Char) :
    parseVal (fu + costEndpoints eps) (serEndpoints eps ++ rest) =
      some (.arr (eps.map epToJVal), rest) := by
  cases eps with
  | nil =>
    show parseVal (fu + 1) ('[' :: (']' :: rest)) = some (.arr [], rest)
    rfl
  | cons ep rest' =>
    rw [serEndpoints_shape, show fu + costEndpoints (ep :: rest') =
      (fu + costEPL (ep :: rest')) + 1 from rfl]
    obtain ⟨X, hX⟩ := serEPList_head ep rest'
    refine parseVal_lbracket_items _ _ (X ++ (']' :: rest)) _ _ ?_ ?_
    · rw [hX, List.cons_append]
      exact skipJson_lbrace _
    · rw [← List.cons_append, ← hX]
      exact parseItems_serEPList (ep :: rest') (by simp) fu rest

/-- `skipJson` identity on the `endpoints` array. -/
theorem skipJson_serEndpoints (eps : List (List (List Char × List Char))) (t : List Char) :
    skipJson (serEndpoints eps ++ t) = serEndpoints eps ++ t := by
  rw [serEndpoints_shape]
  exact skipJson_lbracket _

/-- The five members of a serialised record parse to the decoded members. -/
theorem parsePairs_serRecFields (r : SpecRec) (fu : Nat) (rest : List Char) :
    parsePairs (fu + (costEndpoints r.endpoints + 9)) (serRecFields r ++ ('}' :: rest)) =
      some ([(lc "name", .str r.name), (lc "description", .str r.description),
             (lc "endpoints", .arr (r.endpoints.map epToJVal)),
             (lc "build_in_house", .bool r.build_in_house),
             (lc "reason", .str r.reason)], rest) := by
  have h4 : ∀ g, parsePairs (g + 2)
      (serStr (lc "reason") ++ (':' :: (serStr r.reason ++ ('}' :: rest)))) =
      some ([(lc "reason", JVal.str r.reason)], rest) := fun g =>
    parsePairs_one _ _ _ rest 1 g (fun g2 r2 => parseVal_serStr _ g2 r2)
      (fun t => skipJson_serStr _ t)
  have h3 : ∀ g, parsePairs (g + 4)
      (serStr (lc "build_in_house") ++ (':' :: (serBool r.build_in_house ++ (',' ::
        (serStr (lc "reason") ++ (':' :: (serStr r.reason ++ ('}' :: rest)))))))) =
      some ([(lc "build_in_house", JVal.bool r.build_in_house),
             (lc "reason", JVal.str r.reason)], rest) := fun g =>
    parsePairs_more _ _ _ _ _ rest 1 2 g
      (fun g2 r2 => parseVal_serBool _ g2 r2) (fun t => skipJson_serBool _ t)
      (skipJson_serStr _ _) h4
  have h2 : ∀ g, parsePairs (g + (costEndpoints r.endpoints + 4 + 1))
      (serStr (lc "endpoints") ++ (':' :: (serEndpoints r.endpoints ++ (',' ::
        (serStr (lc "build_in_house") ++ (':' :: (serBool r.build_in_house ++ (',' ::
          (serStr (lc "reason") ++ (':' :: (serStr r.reason ++ ('}' :: rest)))))))))))) =
      some ([(lc "endpoints", JVal.arr (r.endpoints.map epToJVal)),
             (lc "build_in_house", JVal.bool r.build_in_house),
             (lc "reason", JVal.str r.reason)], rest) := fun g =>
    parsePairs_more _ _ _ _ _ rest (costEndpoints r.endpoints) 4 g
      (fun g2 r2 => parseVal_serEndpoints _ g2 r2)
      (fun t => skipJson_serEndpoints _ t)
      (skipJson_serStr _ _) h3
  have h1 : ∀ g, parsePairs (g + (1 + (costEndpoints r.endpoints + 4 + 1) + 1))
      (serStr (lc "description") ++ (':' :: (serStr r.description ++ (',' ::
        (serStr (lc "endpoints") ++ (':' :: (serEndpoints r.endpoints ++ (',' ::
          (serStr (lc "build_in_house") ++ (':' :: (serBool r.build_in_house ++ (',' ::
            (serStr (lc "reason") ++ (':' :: (serStr r.reason ++ ('}' :: rest)))))))))))))))) =
      some ([(lc "description", JVal.str r.description),
             (lc "endpoints", JVal.arr (r.endpoints.map epToJVal)),
             (lc "build_in_house", JVal.bool r.build_in_house),
             (lc "reason", JVal.str r.reason)], rest) := fun g =>
    parsePairs_more _ _ _ _ _ rest 1 (costEndpoints r.endpoints + 4 + 1) g
      (fun g2 r2 => parseVal_serStr _ g2 r2) (fun t => skipJson_serStr _ t)
      (skipJson_serStr _ _) h2
  rw [show fu + (costEndpoints r.endpoints + 9) =
      fu + (1 + (1 + (costEndpoints r.endpoints + 4 + 1) + 1) + 1) from by omega]
  simp only [serRecFields, List.append_assoc, List.cons_append]
  exact parsePairs_more _ _ _ _ _ rest 1 (1 + (costEndpoints r.endpoints + 4 + 1) + 1) fu
    (fun g2 r2 => parseVal_serStr _ g2 r2) (fun t => skipJson_serStr _ t)
    (skipJson_serStr _ _) h1

/-- Reassociation shape of one serialised record. -/
theorem serRec_shape (r : SpecRec) (t : List Char) :
    serRec r ++ t = '{' :: (serRecFields r ++ ('}' :: t)) := by
  simp [serRec, List.append_assoc]

/-- Appending to a serialised string yields a quote-headed list. -/
theorem serStr_append_head (s t : List Char) : ∃ X, serStr s ++ t = '"' :: X :=
  ⟨escStr s ++ ('"' :: t), serStr_shape s t⟩

/-- A serialised record's members start with a quote. -/
theorem serRecFields_head (r : SpecRec) : ∃ X, serRecFields r = '"' :: X := by
  unfold serRecFields
  exact serStr_append_head _ _

/-- One serialised record parses to its decoded value. -/
theorem parseVal_serRec (r : SpecRec) (fu : Nat) (rest : List Char) :
    parseVal (fu + costRec r) (serRec r ++ rest) = some (recToJVal r, rest) := by
  rw [serRec_shape, show fu + costRec r =
    (fu + (costEndpoints r.endpoints + 9)) + 1 from by simp [costRec]; omega]
  obtain ⟨X, hX⟩ := serRecFields_head r
  refine parseVal_lbrace_pairs _ _ (X ++ ('}' :: rest)) _ _ ?_ ?_
  · rw [hX, List.cons_append]
    exact skipJson_cons _ _ (by decide)
  · rw [← List.cons_append, ← hX]
    exact parsePairs_serRecFields r fu rest

/-- A nonempty serialised record list starts with a brace. -/
theorem serRecList_head (r : SpecRec) (rest' : List SpecRec) :
    ∃ X, serRecList (r :: rest') = '{' :: X := by
  cases rest' with
  | nil => exact ⟨_, rfl⟩
  | cons r2 rest2 =>
    refine ⟨(serRecFields r ++ ['}']) ++ (',' :: serRecList (r2 :: rest2)), ?_⟩
    show ('{' :: (serRecFields r ++ ['}'])) ++ (',' :: serRecList (r2 :: rest2)) = _
    rw [List.cons_append]

/-- `skipJson` identity on nonempty serialised record lists. -/
theorem skipJson_serRecList (r : SpecRec) (rest' : List SpecRec) (t : List Char) :
    skipJson (serRecList (r :: rest') ++ t) = serRecList (r :: rest') ++ t := by
  obtain ⟨X, hX⟩ := serRecList_head r rest'
  rw [hX, List.cons_append]
  exact skipJson_lbrace _

/-- A nonempty record list parses item by item. -/
theorem parseItems_serRecList :
    ∀ (specs : List SpecRec), specs ≠ [] →
    ∀ fu rest, parseItems (fu + costRecL specs) (serRecList specs ++ (']' :: rest)) =
      some (specs.map recToJVal, rest) := by
  intro specs
  induction specs with
  | nil => intro h; exact absurd rfl h
  | cons r rest' ih =>
    intro _ fu rest
    cases rest' with
    | nil =>
      show parseItems (fu + (costRec r + 1)) (serRec r ++ (']' :: rest)) =
        some ([recToJVal r], rest)
      exact parseItems_one (serRec r) (recToJVal r) rest (costRec r) fu
        (fun g r2 => parseVal_serRec r g r2)
    | cons r2 rest2 =>
      rw [show serRecList (r :: r2 :: rest2) ++ (']' :: rest) =
          serRec r ++ (',' :: (serRecList (r2 :: rest2) ++ (']' :: rest))) from by
        show (serRec r ++ (',' :: serRecList (r2 :: rest2))) ++ (']' :: rest) = _
        simp [List.append_assoc]]
      rw [show fu + costRecL (r :: r2 :: rest2) =
          fu + (costRec r + costRecL (r2 :: rest2) + 1) from rfl]
      exact parseItems_more (serRec r) _ (recToJVal r) _ rest (costRec r)
        (costRecL (r2 :: rest2)) fu
        (fun g r2 => parseVal_serRec r g r2)
        (skipJson_serRecList r2 rest2 (']' :: rest))
        (fun g => ih (by simp) g rest)

/-- Reassociation shape of the whole serialised array. -/
theorem serSpecs_shape (specs : List SpecRec) (t : List Char) :
    serSpecs specs ++ t = '[' :: (serRecList specs ++ (']' :: t)) := by
  simp [serSpecs, List.append_assoc]

/-- The whole serialised array parses to the decoded record list. -/
theorem parseVal_serSpecs (specs : List SpecRec) (hne : specs ≠ [])
    (fu : Nat) (rest : List Char) :
    parseVal (fu + (costRecL specs + 1)) (serSpecs specs ++ rest) =
      some (.arr (specs.map recToJVal), rest) := by
  cases specs with
  | nil => exact absurd rfl hne
  | cons r rest' =>
    rw [serSpecs_shape, show fu + (costRecL (r :: rest') + 1) =
      (fu + costRecL (r :: rest')) + 1 from rfl]
    obtain ⟨X, hX⟩ := serRecList_head r rest'
    refine parseVal_lbracket_items _ _ (X ++ (']' :: rest)) _ _ ?_ ?_
    · rw [hX, List.cons_append]
      exact skipJson_lbrace _
    · rw [← List.cons_append, ← hX]
      exact parseItems_serRecList (r :: rest') (by simp) fu rest

/-- Serialised strings have at least the two quotes. -/
theorem len_serStr (s : List Char) : 2 ≤ (serStr s).length := by
  simp [serStr]

/-- Endpoint member text is long enough to pay for its parsing fuel. -/
theorem len_serEPFields (ep : List (List Char × List Char)) :
    2 * ep.length ≤ (serEPFields ep).length + 1 := by
  induction ep with
  | nil => simp
  | cons kv rest ih =>
    cases rest with
    | nil =>
      show 2 * 1 ≤ (serStrPair kv).length + 1
      have h1 := len_serStr kv.1
      have h2 := len_serStr kv.2
      simp [serStrPair]
      omega
    | cons kv2 rest2 =>
      show 2 * (kv2 :: rest2).length + 2 ≤
        (serStrPair kv ++ (',' :: serEPFields (kv2 :: rest2))).length + 1
      have h1 := len_serStr kv.1
      have h2 := len_serStr kv.2
      simp only [serStrPair, List.length_append, List.length_cons] at ih ⊢
      omega

/-- One endpoint dictionary is long enough to pay for its fuel. -/
theorem len_serEP (ep : List (List Char × List Char)) : costEP ep ≤ (serEP ep).length := by
  have := len_serEPFields ep
  simp [costEP, serEP]
  omega

/-- An endpoint list is long enough to pay for its fuel. -/
theorem len_serEPList (eps : List (List (List Char × List Char))) :
    costEPL eps ≤ (serEPList eps).length + 1 := by
  induction eps with
  | nil => simp [costEPL]
  | cons ep rest ih =>
    cases rest with
    | nil =>
      show costEP ep + 1 ≤ (serEP ep).length + 1
      have := len_serEP ep
      omega
    | cons ep2 rest2 =>
      show costEP ep + costEPL (ep2 :: rest2) + 1 ≤
        (serEP ep ++ (',' :: serEPList (ep2 :: rest2))).length + 1
      have := len_serEP ep
      simp only [List.length_append, List.length_cons] at ih ⊢
      omega

/-- The `endpoints` array is long enough to pay for its fuel. -/
theorem len_serEndpoints (eps : List (List (List Char × List Char))) :
    costEndpoints eps ≤ (serEndpoints eps).length := by
  cases eps with
  | nil => simp [costEndpoints, serEndpoints, serEPList]
  | cons ep rest =>
    show costEPL (ep :: rest) + 1 ≤ (serEndpoints (ep :: rest)).length
    have := len_serEPList (ep :: rest)
    simp only [serEndpoints, List.length_cons, List.length_append] at this ⊢
    omega

/-- One record is long enough to pay for its fuel. -/
theorem len_serRec (r : SpecRec) : costRec r ≤ (serRec r).length := by
  have hend := len_serEndpoints r.endpoints
  have h1 := len_serStr r.name
  have h2 := len_serStr r.description
  have h3 := len_serStr r.reason
  have hb : 4 ≤ (serBool r.build_in_house).length := by cases r.build_in_house <;> decide
  simp only [costRec, serRec, serRecFields, List.length_cons, List.length_append]
  have hk1 : (serStr (lc "name")).length = 6 := rfl
  have hk2 : (serStr (lc "description")).length = 13 := rfl
  have hk3 : (serStr (lc "endpoints")).length = 11 := rfl
  have hk4 : (serStr (lc "build_in_house")).length = 16 := rfl
  have hk5 : (serStr (lc "reason")).length = 8 := rfl
  omega

/-- A record list is long enough to pay for its fuel. -/
theorem len_serRecList (specs : List SpecRec) :
    costRecL specs ≤ (serRecList specs).length + 1 := by
  induction specs with
  | nil => simp [costRecL]
  | cons r rest ih =>
    cases rest with
    | nil =>
      show costRec r + 1 ≤ (serRec r).length + 1
      have := len_serRec r
      omega
    | cons r2 rest2 =>
      show costRec r + costRecL (r2 :: rest2) + 1 ≤
        (serRec r ++ (',' :: serRecList (r2 :: rest2))).length + 1
      have := len_serRec r
      simp only [List.length_append, List.length_cons] at ih ⊢
      omega

/-- `json.loads` on a nonempty serialised array yields the decoded records
(the fuel bound of `json_loads` is ample). -/
theorem json_loads_serSpecs (specs : List SpecRec) (hne : specs ≠ []) :
    json_loads (serSpecs specs) = .ok (.arr (specs.map recToJVal)) := by
  have hskip : skipJson (serSpecs specs) = serSpecs specs := by
    rw [show serSpecs specs = '[' :: (serRecList specs ++ [']']) from rfl]
    exact skipJson_lbracket _
  have hlen : costRecL specs + 1 ≤ 2 * (serSpecs specs).length + 4 := by
    have := len_serRecList specs
    simp only [serSpecs, List.length_cons, List.length_append] at this ⊢
    omega
  have hp := parseVal_serSpecs specs hne
    (2 * (serSpecs specs).length + 4 - (costRecL specs + 1)) []
  rw [List.append_nil] at hp
  simp only [json_loads, hskip]
  rw [show 2 * (serSpecs specs).length + 4 =
    (2 * (serSpecs specs).length + 4 - (costRecL specs + 1)) + (costRecL specs + 1) from by
      omega, hp]
  rfl

/-- A decoded record coerces to exactly the corresponding `APISpec`. -/
theorem apiSpecOf_recToJVal (r : SpecRec) :
    apiSpecOf (recToJVal r) = .ok (recToAPISpec r) := by
  have hmapM : objValsOf (r.endpoints.map epToJVal) =
      some (r.endpoints.map (fun ep => ep.map (fun kv => (kv.1, JVal.str kv.2)))) := by
    induction r.endpoints with
    | nil => rfl
    | cons ep rest ih => simp [objValsOf, epToJVal, asObjVal, ih]
  have hname : dictGet (lc "name")
      [(lc "name", JVal.str r.name), (lc "description", JVal.str r.description),
       (lc "endpoints", JVal.arr (r.endpoints.map epToJVal)),
       (lc "build_in_house", JVal.bool r.build_in_house),
       (lc "reason", JVal.str r.reason)] = some (JVal.str r.name) := rfl
  have hdesc : dictGet (lc "description")
      [(lc "name", JVal.str r.name), (lc "description", JVal.str r.description),
       (lc "endpoints", JVal.arr (r.endpoints.map epToJVal)),
       (lc "build_in_house", JVal.bool r.build_in_house),
       (lc "reason", JVal.str r.reason)] = some (JVal.str r.description) := rfl
  have hep : dictGet (lc "endpoints")
      [(lc "name", JVal.str r.name), (lc "description", JVal.str r.description),
       (lc "endpoints", JVal.arr (r.endpoints.map epToJVal)),
       (lc "build_in_house", JVal.bool r.build_in_house),
       (lc "reason", JVal.str r.reason)] = some (JVal.arr (r.endpoints.map epToJVal)) := rfl
  have hbih : dictGet (lc "build_in_house")
      [(lc "name", JVal.str r.name), (lc "description", JVal.str r.description),
       (lc "endpoints", JVal.arr (r.endpoints.map epToJVal)),
       (lc "build_in_house", JVal.bool r.build_in_house),
       (lc "reason", JVal.str r.reason)] = some (JVal.bool r.build_in_house) := rfl
  have hreason : dictGet (lc "reason")
      [(lc "name", JVal.str r.name), (lc "description", JVal.str r.description),
       (lc "endpoints", JVal.arr (r.endpoints.map epToJVal)),
       (lc "build_in_house", JVal.bool r.build_in_house),
       (lc "reason", JVal.str r.reason)] = some (JVal.str r.reason) := rfl
  simp [apiSpecOf, recToJVal, specOfObj, hname, hdesc, hep, hbih, hreason,
    asStrVal, asBoolVal, asEndpoints, hmapM, recToAPISpec]

/-- Decoded record lists coerce elementwise. -/
theorem coerceList_recToJVal (specs : List SpecRec) :
    coerceList (specs.map recToJVal) = .ok (specs.map recToAPISpec) := by
  induction specs with
  | nil => rfl
  | cons r rest ih =>
    simp [coerceList, apiSpecOf_recToJVal, ih, Bind.bind, Except.bind, Pure.pure, Except.pure]

/-- Bracket balance of a text: opening minus closing brackets. -/
def brBal (t : List Char) : Int := (t.count '[' : Int) - (t.count ']' : Int)

/-- Unfolding step of the scan. -/
theorem bracketZero_cons (c : Char) (rest : List Char) (cnt : Int) :
    bracketZero (c :: rest) cnt =
      if c = ']' ∧ (if c = '[' then cnt + 1 else if c = ']' then cnt - 1 else cnt) = 0
      then some 0
      else (bracketZero rest
        (if c = '[' then cnt + 1 else if c = ']' then cnt - 1 else cnt)).map (· + 1) := rfl

/-- A text without `]` can never trigger the scan. -/
theorem bracketZero_none_of_not_mem (P : List Char) (h : ']' ∉ P) :
    ∀ cnt, bracketZero P cnt = none := by
  induction P with
  | nil => intro cnt; rfl
  | cons c rest ih =>
    intro cnt
    have hc : ¬c = ']' := fun hcc => h (hcc ▸ List.mem_cons_self ..)
    rw [bracketZero_cons, if_neg (fun hand => hc hand.1),
      ih (fun hm => h (List.mem_cons_of_mem _ hm))]
    rfl

/-- A text without `]` has nonnegative balance. -/
theorem brBal_nonneg_of_not_mem (P : List Char) (h : ']' ∉ P) : 0 ≤ brBal P := by
  simp [brBal, List.count_eq_zero_of_not_mem h]

/-- The scan over an append whose first part never triggers. -/
theorem bracketZero_append (A B : List Char) :
    ∀ cnt, bracketZero A cnt = none →
    bracketZero (A ++ B) cnt = (bracketZero B (cnt + brBal A)).map (· + A.length) := by
  induction A with
  | nil =>
    intro cnt _
    simp only [List.nil_append, brBal, List.count_nil]
    cases hB : bracketZero B cnt with
    | none => simp [show cnt + ((0 : Int) - 0) = cnt by omega, hB]
    | some i => simp [show cnt + ((0 : Int) - 0) = cnt by omega, hB]
  | cons c A ih =>
    intro cnt h
    rw [bracketZero_cons] at h
    rw [List.cons_append, bracketZero_cons]
    by_cases htr : c = ']' ∧ (if c = '[' then cnt + 1 else if c = ']' then cnt - 1 else cnt) = 0
    · rw [if_pos htr] at h
      exact absurd h (by simp)
    · rw [if_neg htr] at h
      rw [if_neg htr]
      have hA : bracketZero A
          (if c = '[' then cnt + 1 else if c = ']' then cnt - 1 else cnt) = none := by
        cases hx : bracketZero A
          (if c = '[' then cnt + 1 else if c = ']' then cnt - 1 else cnt) with
        | none => rfl
        | some i => rw [hx] at h; exact absurd h (by simp)
      rw [ih _ hA]
      have hbal : (if c = '[' then cnt + 1 else if c = ']' then cnt - 1 else cnt) + brBal A =
          cnt + brBal (c :: A) := by
        by_cases h1 : c = '['
        · subst h1
          simp [brBal, List.count_cons]
          omega
        · by_cases h2 : c = ']'
          · subst h2
            simp [brBal, List.count_cons]
            omega
          · simp [brBal, List.count_cons, Ne.symm h1, Ne.symm h2, h1, h2]
      rw [hbal, Option.map_map]
      have hfun : ((fun x : Nat => x + 1) ∘ (fun x : Nat => x + A.length)) =
          (fun x : Nat => x + (c :: A).length) := by
        funext n
        show n + A.length + 1 = n + (c :: A).length
        rw [List.length_cons]
        omega
      rw [hfun]

/-- The scan over an append neither of whose parts triggers. -/
theorem bracketZero_append_none (A B : List Char) (cnt : Int)
    (hA : bracketZero A cnt = none) (hB : bracketZero B (cnt + brBal A) = none) :
    bracketZero (A ++ B) cnt = none := by
  rw [bracketZero_append A B cnt hA, hB]
  rfl

/-- Balance is additive over append. -/
theorem brBal_append (A B : List Char) : brBal (A ++ B) = brBal A + brBal B := by
  simp only [brBal, List.count_append]
  push_cast
  ring

/-- Hexadecimal digit characters are never `]`. -/
theorem hexDig_ne_rb (n : Nat) (h : n < 16) : hexDig n ≠ ']' := by
  interval_cases n <;> decide

/-- The escape of a character other than `]` contains no `]`. -/
theorem not_mem_escChar (c : Char) (h : c ≠ ']') : ']' ∉ escChar c := by
  unfold escChar
  split_ifs with h1 h2 h3
  · decide
  · decide
  · have ha : hexDig (c.toNat / 16) ≠ ']' := hexDig_ne_rb _ (by omega)
    have hb : hexDig (c.toNat % 16) ≠ ']' := hexDig_ne_rb _ (Nat.mod_lt _ (by omega))
    simp [List.mem_cons, Ne.symm ha, Ne.symm hb]
  · simp [Ne.symm h]

/-- The escape of a `]`-free string contains no `]`. -/
theorem not_mem_escStr (s : List Char) (h : ']' ∉ s) : ']' ∉ escStr s := by
  induction s with
  | nil => simp [escStr]
  | cons c rest ih =>
    show ']' ∉ escChar c ++ escStr rest
    intro hm
    rcases List.mem_append.mp hm with hm | hm
    · exact not_mem_escChar c (fun hc => h (hc ▸ List.mem_cons_self ..)) hm
    · exact ih (fun hm2 => h (List.mem_cons_of_mem _ hm2)) hm

/-- A string literal of `]`-free content contains no `]`. -/
theorem not_mem_serStr (s : List Char) (h : ']' ∉ s) : ']' ∉ serStr s := by
  show ']' ∉ '"' :: (escStr s ++ ['"'])
  intro hm
  rcases List.mem_cons.mp hm with hm | hm
  · exact absurd hm (by decide)
  · rcases List.mem_append.mp hm with hm | hm
    · exact not_mem_escStr s h hm
    · exact absurd hm (by decide)

/-- Serialised booleans contain no `]`. -/
theorem not_mem_serBool (b : Bool) : ']' ∉ serBool b := by
  cases b <;> decide

/-- A string member of `]`-free key and value contains no `]`. -/
theorem not_mem_serStrPair (kv : List Char × List Char) (h1 : ']' ∉ kv.1) (h2 : ']' ∉ kv.2) :
    ']' ∉ serStrPair kv := by
  unfold serStrPair
  intro hm
  rcases List.mem_append.mp hm with hm | hm
  · exact not_mem_serStr _ h1 hm
  · rcases List.mem_cons.mp hm with hm | hm
    · exact absurd hm (by decide)
    · exact not_mem_serStr _ h2 hm

/-- Serialised endpoint members of a `]`-free dictionary contain no `]`. -/
theorem not_mem_serEPFields (ep : List (List Char × List Char)) (h : NoRBEP ep) :
    ']' ∉ serEPFields ep := by
  induction ep with
  | nil => simp [serEPFields]
  | cons kv rest ih =>
    have hkv := h kv (List.mem_cons_self ..)
    cases rest with
    | nil => exact not_mem_serStrPair kv hkv.1 hkv.2
    | cons kv2 rest2 =>
      show ']' ∉ serStrPair kv ++ (',' :: serEPFields (kv2 :: rest2))
      intro hm
      rcases List.mem_append.mp hm with hm | hm
      · exact not_mem_serStrPair kv hkv.1 hkv.2 hm
      · rcases List.mem_cons.mp hm with hm | hm
        · exact absurd hm (by decide)
        · exact ih (fun kv3 hkv3 => h kv3 (List.mem_cons_of_mem _ hkv3)) hm

/-- A serialised `]`-free endpoint dictionary contains no `]`. -/
theorem not_mem_serEP (ep : List (List Char × List Char)) (h : NoRBEP ep) :
    ']' ∉ serEP ep := by
  show ']' ∉ '{' :: (serEPFields ep ++ ['}'])
  intro hm
  rcases List.mem_cons.mp hm with hm | hm
  · exact absurd hm (by decide)
  · rcases List.mem_append.mp hm with hm | hm
    · exact not_mem_serEPFields ep h hm
    · exact absurd hm (by decide)

/-- The comma-joined endpoint dictionaries contain no `]` when all are `]`-free. -/
theorem not_mem_serEPList (eps : List (List (List Char × List Char)))
    (h : ∀ ep ∈ eps, NoRBEP ep) : ']' ∉ serEPList eps := by
  induction eps with
  | nil => simp [serEPList]
  | cons ep rest ih =>
    have hep := h ep (List.mem_cons_self ..)
    cases rest with
    | nil => exact not_mem_serEP ep hep
    | cons ep2 rest2 =>
      show ']' ∉ serEP ep ++ (',' :: serEPList (ep2 :: rest2))
      intro hm
      rcases List.mem_append.mp hm with hm | hm
      · exact not_mem_serEP ep hep hm
      · rcases List.mem_cons.mp hm with hm | hm
        · exact absurd hm (by decide)
        · exact ih (fun e he => h e (List.mem_cons_of_mem _ he)) hm

/-- Starting at a count of at least one, the scan never returns to zero inside
the serialised `endpoints` array. -/
theorem bracketZero_serEndpoints (eps : List (List (List Char × List Char)))
    (h : ∀ ep ∈ eps, NoRBEP ep) (cnt : Int) (hcnt : 1 ≤ cnt) :
    bracketZero (serEndpoints eps) cnt = none := by
  have hnr : ']' ∉ serEPList eps := not_mem_serEPList eps h
  have hbal : 0 ≤ brBal (serEPList eps) := brBal_nonneg_of_not_mem _ hnr
  have hinner : bracketZero (serEPList eps ++ [']']) (cnt + 1) = none := by
    apply bracketZero_append_none
    · exact bracketZero_none_of_not_mem _ hnr _
    · rw [bracketZero_cons]
      simp only [Char.reduceEq, reduceIte, true_and]
      rw [if_neg (by omega)]
      rfl
  show bracketZero ('[' :: (serEPList eps ++ [']'])) cnt = none
  rw [bracketZero_cons]
  simp only [Char.reduceEq, reduceIte, false_and]
  rw [hinner]
  rfl

/-- The balance of the `endpoints` array equals that of its body. -/
theorem brBal_serEndpoints (eps : List (List (List Char × List Char))) :
    brBal (serEndpoints eps) = brBal (serEPList eps) := by
  show brBal (['['] ++ (serEPList eps ++ [']'])) = _
  rw [brBal_append, brBal_append]
  have h1 : brBal ['['] = 1 := by decide
  have h2 : brBal [']'] = -1 := by decide
  rw [h1, h2]
  ring

/-- The serialised record members before the `endpoints` array. -/
def recPre (r : SpecRec) : List Char :=
  serStr (lc "name") ++ (':' :: (serStr r.name ++ (',' ::
    (serStr (lc "description") ++ (':' :: (serStr r.description ++ (',' ::
    (serStr (lc "endpoints") ++ [':']))))))))

/-- The serialised record members after the `endpoints` array. -/
def recPost (r : SpecRec) : List Char :=
  ',' :: (serStr (lc "build_in_house") ++ (':' :: (serBool r.build_in_house ++ (',' ::
    (serStr (lc "reason") ++ (':' :: serStr r.reason))))))

/-- A record's members split around its `endpoints` array. -/
theorem serRecFields_decomp (r : SpecRec) :
    serRecFields r = recPre r ++ (serEndpoints r.endpoints ++ recPost r) := by
  simp [serRecFields, recPre, recPost]

/-- The prefix part contains no `]` when name and description are `]`-free. -/
theorem not_mem_recPre (r : SpecRec) (hname : ']' ∉ r.name) (hdesc : ']' ∉ r.description) :
    ']' ∉ recPre r := by
  have h1 : ']' ∉ serStr (lc "name") := by decide
  have h2 : ']' ∉ serStr (lc "description") := by decide
  have h3 : ']' ∉ serStr (lc "endpoints") := by decide
  have h4 := not_mem_serStr r.name hname
  have h5 := not_mem_serStr r.description hdesc
  simp [recPre, List.mem_append, List.mem_cons, h1, h2, h3, h4, h5]

/-- The suffix part contains no `]` when the reason is `]`-free. -/
theorem not_mem_recPost (r : SpecRec) (hreason : ']' ∉ r.reason) : ']' ∉ recPost r := by
  have h1 : ']' ∉ serStr (lc "build_in_house") := by decide
  have h2 : ']' ∉ serStr (lc "reason") := by decide
  have h3 := not_mem_serStr r.reason hreason
  have h4 := not_mem_serBool r.build_in_house
  simp [recPost, List.mem_append, List.mem_cons, h1, h2, h3, h4]

/-- A serialised `]`-free record has nonnegative balance. -/
theorem brBal_serRec (r : SpecRec) (h : NoRBRec r) : 0 ≤ brBal (serRec r) := by
  obtain ⟨hn, hd, hr, heps⟩ := h
  have hpre := brBal_nonneg_of_not_mem _ (not_mem_recPre r hn hd)
  have hpost := brBal_nonneg_of_not_mem _ (not_mem_recPost r hr)
  have hepl := brBal_nonneg_of_not_mem _ (not_mem_serEPList _ heps)
  show 0 ≤ brBal (['{'] ++ (serRecFields r ++ ['}']))
  rw [brBal_append, brBal_append, serRecFields_decomp, brBal_append, brBal_append,
    brBal_serEndpoints]
  have hb1 : brBal ['{'] = 0 := by decide
  have hb2 : brBal ['}'] = 0 := by decide
  rw [hb1, hb2]
  omega

/-- Starting at a count of at least one, the scan never returns to zero inside
a serialised `]`-free record. -/
theorem bracketZero_serRec (r : SpecRec) (h : NoRBRec r) (cnt : Int) (hcnt : 1 ≤ cnt) :
    bracketZero (serRec r) cnt = none := by
  obtain ⟨hn, hd, hr, heps⟩ := h
  have hpre := not_mem_recPre r hn hd
  have hpost := not_mem_recPost r hr
  have hpreb := brBal_nonneg_of_not_mem _ hpre
  have hinner : bracketZero (serRecFields r ++ ['}']) cnt = none := by
    rw [serRecFields_decomp, List.append_assoc, List.append_assoc]
    apply bracketZero_append_none
    · exact bracketZero_none_of_not_mem _ hpre _
    · apply bracketZero_append_none
      · exact bracketZero_serEndpoints _ heps _ (by omega)
      · apply bracketZero_none_of_not_mem
        intro hm
        rcases List.mem_append.mp hm with hm | hm
        · exact hpost hm
        · exact absurd hm (by decide)
  show bracketZero ('{' :: (serRecFields r ++ ['}'])) cnt = none
  rw [bracketZero_cons]
  simp only [Char.reduceEq, reduceIte, false_and]
  rw [hinner]
  rfl

/-- A comma-joined list of serialised `]`-free records has nonnegative balance. -/
theorem brBal_serRecList (specs : List SpecRec) (h : NoRBSpecs specs) :
    0 ≤ brBal (serRecList specs) := by
  induction specs with
  | nil => decide
  | cons r rest ih =>
    have hr := brBal_serRec r (h r (List.mem_cons_self ..))
    cases rest with
    | nil => exact hr
    | cons r2 rest2 =>
      have hih := ih (fun s hs => h s (List.mem_cons_of_mem _ hs))
      show 0 ≤ brBal (serRec r ++ (',' :: serRecList (r2 :: rest2)))
      rw [show (',' :: serRecList (r2 :: rest2)) = [','] ++ serRecList (r2 :: rest2) from rfl,
        brBal_append, brBal_append]
      have hc : brBal [','] = 0 := by decide
      rw [hc]
      omega

/-- Starting at a count of at least one, the scan never returns to zero inside
the comma-joined serialised records. -/
theorem bracketZero_serRecList (specs : List SpecRec) :
    ∀ cnt : Int, NoRBSpecs specs → 1 ≤ cnt → bracketZero (serRecList specs) cnt = none := by
  induction specs with
  | nil =>
    intro cnt _ _
    rfl
  | cons r rest ih =>
    intro cnt h hcnt
    have hr := bracketZero_serRec r (h r (List.mem_cons_self ..)) cnt hcnt
    cases rest with
    | nil => exact hr
    | cons r2 rest2 =>
      have hrb := brBal_serRec r (h r (List.mem_cons_self ..))
      show bracketZero (serRec r ++ (',' :: serRecList (r2 :: rest2))) cnt = none
      apply bracketZero_append_none _ _ _ hr
      rw [bracketZero_cons]
      simp only [Char.reduceEq, reduceIte, false_and]
      rw [ih _ (fun s hs => h s (List.mem_cons_of_mem _ hs)) (by omega)]
      rfl

/-- Under `]`-free string contents, the bracket-balance scan isolates exactly
the whole serialised array: the balancing `]` is its final character. -/
theorem bracketSlice_serSpecs (specs : List SpecRec) (h : NoRBSpecs specs) :
    bracketSlice (serSpecs specs) = serSpecs specs := by
  unfold bracketSlice
  have hbody : bracketZero (serRecList specs) 1 = none :=
    bracketZero_serRecList specs 1 h (by omega)
  have hscan : bracketZero (serSpecs specs) 0 =
      if brBal (serRecList specs) = 0 then some ((serRecList specs).length + 1) else none := by
    show bracketZero ('[' :: (serRecList specs ++ [']'])) 0 = _
    rw [bracketZero_cons]
    simp only [Char.reduceEq, reduceIte, false_and, zero_add]
    rw [bracketZero_append _ _ _ hbody]
    rw [bracketZero_cons]
    simp only [Char.reduceEq, reduceIte, true_and]
    by_cases hb : brBal (serRecList specs) = 0
    · rw [if_pos (by omega), if_pos hb]
      simp
    · rw [if_neg (by omega), if_neg hb]
      rfl
  rw [hscan]
  by_cases hb : brBal (serRecList specs) = 0
  · rw [if_pos hb]
    show (serSpecs specs).take ((serRecList specs).length + 1 + 1) = serSpecs specs
    apply List.take_of_length_le
    have hlen : (serSpecs specs).length = (serRecList specs).length + 2 := by
      show ('[' :: (serRecList specs ++ [']'])).length = _
      simp
    omega
  · rw [if_neg hb]

/-- A record's members start with the literal key text. -/
theorem serRecFields_key (r : SpecRec) :
    ∃ M, serRecFields r = lc "\"name\":" ++ M := by
  refine ⟨serStr r.name ++ [','] ++ serStr (lc "description") ++ [':'] ++ serStr r.description
    ++ [','] ++ serStr (lc "endpoints") ++ [':'] ++ serEndpoints r.endpoints ++ [',']
    ++ serStr (lc "build_in_house") ++ [':'] ++ serBool r.build_in_house ++ [',']
    ++ serStr (lc "reason") ++ [':'] ++ serStr r.reason, ?_⟩
  have hser : serStr (lc "name") = lc "\"name\"" := by decide
  have h2 : lc "\"name\":" = lc "\"name\"" ++ [':'] := by decide
  rw [h2, ← hser]
  simp [serRecFields]

/-- The regex marker matches at the head of a nonempty serialised array. -/
theorem nameArrayAt_serSpecs (specs : List SpecRec) (hne : specs ≠ []) :
    nameArrayAt (serSpecs specs) = true := by
  cases specs with
  | nil => exact absurd rfl hne
  | cons r rest' =>
    obtain ⟨M, hM⟩ := serRecFields_key r
    obtain ⟨Y, hY⟩ : ∃ Y, serRecList (r :: rest') = '{' :: (serRecFields r ++ Y) := by
      cases rest' with
      | nil => exact ⟨['}'], rfl⟩
      | cons r2 rest2 =>
        refine ⟨'}' :: (',' :: serRecList (r2 :: rest2)), ?_⟩
        show ('{' :: (serRecFields r ++ ['}'])) ++ (',' :: serRecList (r2 :: rest2)) = _
        simp
    have hshape : serSpecs (r :: rest') =
        '[' :: ('{' :: (lc "\"name\":" ++ ((M ++ Y) ++ [']']))) := by
      show '[' :: (serRecList (r :: rest') ++ [']']) = _
      rw [hY, hM]
      simp
    rw [hshape]
    show (lc "\"name\":").isPrefixOf (lc "\"name\":" ++ ((M ++ Y) ++ [']'])) = true
    exact List.isPrefixOf_iff_prefix.mpr (List.prefix_append _ _)

/-- The regex search over a never-matching prefix followed by a matching tail
finds exactly the boundary position. -/
theorem searchNameArray_append (md T : List Char) (hT : nameArrayAt T = true) :
    (∀ i, i < md.length → nameArrayAt ((md ++ T).drop i) = false) →
    searchNameArray (md ++ T) = some md.length := by
  induction md with
  | nil =>
    intro _
    cases T with
    | nil => exact absurd hT (by decide)
    | cons c rest =>
      show searchNameArray (c :: rest) = some 0
      unfold searchNameArray
      rw [if_pos hT]
  | cons c md' ih =>
    intro hmd
    have h0 : nameArrayAt (c :: (md' ++ T)) = false := by
      have := hmd 0 (by simp)
      simpa using this
    rw [List.cons_append]
    unfold searchNameArray
    rw [if_neg (by simp [h0])]
    rw [ih (fun i hi => by
      have := hmd (i + 1) (by simp only [List.length_cons]; omega)
      simpa [List.cons_append, List.drop_succ_cons] using this)]
    rfl

/-- Instance of the claim at canonically serialised arrays: for a compact
serialised specification array appended to a markdown prefix in which the
marker regex never matches, `generate_masterplan` returns the stripped prefix
as the markdown and exactly the array's records, in order, as the specs. -/
theorem masterplan_of_serSpecs (md : List Char) (specs : List SpecRec)
    (hne : specs ≠ [])
    (hmd : ∀ i, i < md.length → nameArrayAt ((md ++ serSpecs specs).drop i) = false)
    (hnb : NoRBSpecs specs) :
    generate_masterplan (.ok (md ++ serSpecs specs)) =
      ⟨pyStrip md, specs.map recToAPISpec, none⟩ := by
  have hsearch : searchNameArray (md ++ serSpecs specs) = some md.length :=
    searchNameArray_append md (serSpecs specs) (nameArrayAt_serSpecs specs hne) hmd
  have hdrop : (md ++ serSpecs specs).drop md.length = serSpecs specs := List.drop_left md _
  have htake : (md ++ serSpecs specs).take md.length = md := List.take_left md _
  have hext : masterplanExtract (md ++ serSpecs specs) =
      .ok ⟨pyStrip md, specs.map recToAPISpec, none⟩ := by
    unfold masterplanExtract
    rw [hsearch]
    simp only [hdrop, bracketSlice_serSpecs specs hnb, json_loads_serSpecs specs hne, htake,
      Bind.bind, Except.bind, iterCoerce, coerceList_recToJVal, Pure.pure, Except.pure]
  have htry : masterplanTry (md ++ serSpecs specs) =
      .ok ⟨pyStrip md, specs.map recToAPISpec, none⟩ := by
    unfold masterplanTry
    rw [hext]
  show (match masterplanTry (md ++ serSpecs specs) with
    | Except.ok r => r
    | Except.error e =>
      (⟨lc "An error occurred while generating the masterplan: " ++ e.msg, [], none⟩ :
        MasterplanResponse)) =
    (⟨pyStrip md, specs.map recToAPISpec, none⟩ : MasterplanResponse)
  rw [htry]

/-- Claim C1 counterexample input: the array is well-formed (its isolated
text is valid JSON whose objects all coerce), but the description value
contains a `]`. -/
def c1CexIn : List Char :=
  lc "Plan.\n[\x7b\"name\":\"a\",\"description\":\"]\",\"endpoints\":[],\"build_in_house\":true,\"reason\":\"r\"\x7d]"

/-- The decoded value of the full array region of `c1CexIn`. -/
def c1CexVal : JVal :=
  .arr [.obj [(lc "name", .str (lc "a")), (lc "description", .str (lc "]")),
    (lc "endpoints", .arr []), (lc "build_in_house", .bool true),
    (lc "reason", .str (lc "r"))]]

/-- Counterexample to claim C1 as stated: the marker is found at position 6,
the text from there to the end is a well-formed JSON array of objects that
all coerce to `APISpec`s, yet the bracket-balance scan stops at the `]`
inside the description string, `json.loads` of the truncated slice fails,
and the result is the full raw text with no specs — not the stripped prefix
with the array's records. -/
theorem C1_counterexample :
    searchNameArray c1CexIn = some 6 ∧
    json_loads (c1CexIn.drop 6) = .ok c1CexVal ∧
    iterCoerce c1CexVal = .ok [⟨lc "a", lc "]", [], true, lc "r"⟩] ∧
    (generate_masterplan (.ok c1CexIn)).markdown_content = c1CexIn ∧
    (generate_masterplan (.ok c1CexIn)).api_specs = [] ∧
    (generate_masterplan (.ok c1CexIn)).markdown_content ≠ pyStrip (c1CexIn.take 6) :=
  ⟨rfl, rfl, rfl, rfl, rfl, by decide⟩

/-- The markdown prefix of the spec's `"Orders"` example. -/
def c1WitMd : List Char := lc "Plan overview.\n\n"

/-! ### Claim C1, general form: arbitrary well-formed array texts

The amendment's condition — no string content contains `]` — is stated on
the decoded value, and the scan property is derived for every input text
that `json_loads` accepts, whatever its whitespace, key order, escapes or
value shapes. -/

mutual

/-- No string value anywhere in a decoded value contains `]`. -/
def noRBVal : JVal → Bool
  | .str s => decide (']' ∉ s)
  | .arr l => noRBArr l
  | .obj kvs => noRBObj kvs
  | _ => true

/-- `noRBVal` over the elements of an array. -/
def noRBArr : List JVal → Bool
  | [] => true
  | v :: rest => noRBVal v && noRBArr rest

/-- No key and no string value of an object's members contains `]`. -/
def noRBObj : List (List Char × JVal) → Bool
  | [] => true
  | (k, v) :: rest => decide (']' ∉ k) && noRBVal v && noRBObj rest

end

/-- A text the scan can pass through: from any count of at least one it
never returns to zero, and it never decreases the count overall. -/
def ScanSafe (C : List Char) : Prop :=
  (∀ cnt : Int, 1 ≤ cnt → bracketZero C cnt = none) ∧ 0 ≤ brBal C

theorem ScanSafe_of_not_mem (C : List Char) (h : ']' ∉ C) : ScanSafe C :=
  ⟨fun cnt _ => bracketZero_none_of_not_mem C h cnt, brBal_nonneg_of_not_mem C h⟩

theorem ScanSafe_nil : ScanSafe [] := ScanSafe_of_not_mem [] (by simp)

theorem ScanSafe_append (A B : List Char) (hA : ScanSafe A) (hB : ScanSafe B) :
    ScanSafe (A ++ B) := by
  obtain ⟨hA1, hA2⟩ := hA
  obtain ⟨hB1, hB2⟩ := hB
  refine ⟨fun cnt hcnt => ?_, ?_⟩
  · exact bracketZero_append_none A B cnt (hA1 cnt hcnt) (hB1 _ (by omega))
  · rw [brBal_append]
    omega

theorem ScanSafe_cons (c : Char) (M : List Char) (hc : c ≠ ']') (hM : ScanSafe M) :
    ScanSafe (c :: M) :=
  ScanSafe_append [c] M
    (ScanSafe_of_not_mem [c] (fun hm => hc (List.mem_singleton.mp hm).symm)) hM

/-- A scan-safe text wrapped in array brackets is scan-safe. -/
theorem ScanSafe_arr (M : List Char) (hM : ScanSafe M) : ScanSafe ('[' :: (M ++ [']'])) := by
  obtain ⟨h1, h2⟩ := hM
  constructor
  · intro cnt hcnt
    have hin : bracketZero (M ++ [']']) (cnt + 1) = none := by
      apply bracketZero_append_none _ _ _ (h1 _ (by omega))
      rw [bracketZero_cons]
      simp only [Char.reduceEq, reduceIte, true_and]
      rw [if_neg (by omega)]
      rfl
    rw [bracketZero_cons]
    simp only [Char.reduceEq, reduceIte, false_and]
    rw [hin]
    rfl
  · have e : brBal ('[' :: (M ++ [']'])) = brBal M := by
      show brBal (['['] ++ (M ++ [']'])) = _
      rw [brBal_append, brBal_append]
      have e1 : brBal ['['] = 1 := by decide
      have e2 : brBal [']'] = -1 := by decide
      rw [e1, e2]
      ring
    rw [e]
    exact h2

/-- A scan-safe text wrapped in object braces is scan-safe. -/
theorem ScanSafe_obj (M : List Char) (hM : ScanSafe M) : ScanSafe ('{' :: (M ++ ['}'])) := by
  obtain ⟨h1, h2⟩ := hM
  constructor
  · intro cnt hcnt
    have hin : bracketZero (M ++ ['}']) cnt = none := by
      apply bracketZero_append_none _ _ _ (h1 _ hcnt)
      rw [bracketZero_cons]
      simp only [Char.reduceEq, reduceIte, false_and]
      rfl
    rw [bracketZero_cons]
    simp only [Char.reduceEq, reduceIte, false_and]
    rw [hin]
    rfl
  · have e : brBal ('{' :: (M ++ ['}'])) = brBal M := by
      show brBal (['{'] ++ (M ++ ['}'])) = _
      rw [brBal_append, brBal_append]
      have e1 : brBal ['{'] = 0 := by decide
      have e2 : brBal ['}'] = 0 := by decide
      rw [e1, e2]
      ring
    rw [e]
    exact h2

/-- On a bracket-wrapped text whose body never zeroes the count, the scan
either stops exactly at the final `]` or never stops: the slice is the whole
text either way. -/
theorem bracketSlice_rbclose (M : List Char)
    (hM : ∀ cnt : Int, 1 ≤ cnt → bracketZero M cnt = none) :
    bracketSlice ('[' :: (M ++ [']'])) = '[' :: (M ++ [']']) := by
  unfold bracketSlice
  have hscan : bracketZero ('[' :: (M ++ [']'])) 0 =
      if brBal M = 0 then some (M.length + 1) else none := by
    rw [bracketZero_cons]
    simp only [Char.reduceEq, reduceIte, false_and, zero_add]
    rw [bracketZero_append _ _ _ (hM 1 le_rfl)]
    rw [bracketZero_cons]
    simp only [Char.reduceEq, reduceIte, true_and]
    by_cases hb : brBal M = 0
    · rw [if_pos (by omega), if_pos hb]
      simp
    · rw [if_neg (by omega), if_neg hb]
      rfl
  rw [hscan]
  by_cases hb : brBal M = 0
  · rw [if_pos hb]
    show ('[' :: (M ++ [']'])).take (M.length + 1 + 1) = _
    apply List.take_of_length_le
    have hlen : ('[' :: (M ++ [']'])).length = M.length + 2 := by simp
    omega
  · rw [if_neg hb]

/-- Unfolding of the surrogate pairing at a single trailing unit. -/
theorem combineUnitsF_one (fu n : Nat) : combineUnitsF (fu + 1) [n] =
    if 55296 ≤ n && n < 56320 then [scalarChar n]
    else scalarChar n :: combineUnitsF fu [] := rfl

/-- Unfolding of the surrogate pairing at two or more units. -/
theorem combineUnitsF_two (fu n m : Nat) (rest2 : List Nat) :
    combineUnitsF (fu + 1) (n :: m :: rest2) =
      if 55296 ≤ n && n < 56320 then
        (if 56320 ≤ m && m < 57344 then
          scalarChar (65536 + (n - 55296) * 1024 + (m - 56320)) :: combineUnitsF fu rest2
        else scalarChar n :: combineUnitsF fu (m :: rest2))
      else scalarChar n :: combineUnitsF fu (m :: rest2) := rfl

/-- A decoded code unit `93` always surfaces as a `]` character: `93` is not
a surrogate, so surrogate pairing never consumes it. -/
theorem mem_combineUnitsF : ∀ fu us, us.length ≤ fu → (93 : Nat) ∈ us →
    ']' ∈ combineUnitsF fu us := by
  intro fu
  induction fu with
  | zero =>
    intro us hl hm
    cases us with
    | nil => exact absurd hm (by simp)
    | cons n rest => simp at hl
  | succ fu ih =>
    intro us hl hm
    cases us with
    | nil => exact absurd hm (by simp)
    | cons n rest =>
      cases rest with
      | nil =>
        rw [combineUnitsF_one]
        have h93 : (93 : Nat) = n := by simpa using hm
        rw [if_neg (by rw [← h93]; decide)]
        have hsc : scalarChar 93 = ']' := by decide
        rw [← h93, hsc]
        exact List.mem_cons_self ..
      | cons m rest2 =>
        rw [combineUnitsF_two]
        by_cases hn : (55296 ≤ n && n < 56320) = true
        · rw [if_pos hn]
          simp only [Bool.and_eq_true, decide_eq_true_eq] at hn
          by_cases hm2 : (56320 ≤ m && m < 57344) = true
          · rw [if_pos hm2]
            simp only [Bool.and_eq_true, decide_eq_true_eq] at hm2
            have h93 : (93 : Nat) ∈ rest2 := by
              rcases List.mem_cons.mp hm with h | h
              · omega
              · rcases List.mem_cons.mp h with h | h
                · omega
                · exact h
            have hlen : rest2.length ≤ fu := by
              simp only [List.length_cons] at hl
              omega
            exact List.mem_cons_of_mem _ (ih rest2 hlen h93)
          · rw [if_neg hm2]
            have h93 : (93 : Nat) ∈ m :: rest2 := by
              rcases List.mem_cons.mp hm with h | h
              · omega
              · exact h
            have hlen : (m :: rest2).length ≤ fu := by
              simp only [List.length_cons] at hl ⊢
              omega
            exact List.mem_cons_of_mem _ (ih (m :: rest2) hlen h93)
        · rw [if_neg hn]
          rcases List.mem_cons.mp hm with h | h
          · have hsc : scalarChar 93 = ']' := by decide
            rw [← h, hsc]
            exact List.mem_cons_self ..
          · have hlen : (m :: rest2).length ≤ fu := by
              simp only [List.length_cons] at hl ⊢
              omega
            exact List.mem_cons_of_mem _ (ih (m :: rest2) hlen h)

theorem mem_combineUnits (us : List Nat) (h : (93 : Nat) ∈ us) : ']' ∈ combineUnits us :=
  mem_combineUnitsF us.length us le_rfl h

/-- `]` is not a hexadecimal digit. -/
theorem hexDigVal_rb : hexDigVal ']' = none := by decide

/-- A character with a hexadecimal value is not `]`. -/
theorem hexDigVal_ne_rb (x : Char) (v : Nat) (h : hexDigVal x = some v) : x ≠ ']' := by
  intro he
  rw [he, hexDigVal_rb] at h
  exact Option.noConfusion h

/-- A successful four-digit escape uses no `]`. -/
theorem hexQuad_digits (a b c d : Char) (n : Nat) (h : hexQuad a b c d = some n) :
    a ≠ ']' ∧ b ≠ ']' ∧ c ≠ ']' ∧ d ≠ ']' := by
  cases ha : hexDigVal a with
  | none =>
    have hnone : hexQuad a b c d = none := by simp [hexQuad, ha, Bind.bind, Option.bind]
    rw [hnone] at h
    exact absurd h (by simp)
  | some va =>
  cases hb : hexDigVal b with
  | none =>
    have hnone : hexQuad a b c d = none := by simp [hexQuad, ha, hb, Bind.bind, Option.bind]
    rw [hnone] at h
    exact absurd h (by simp)
  | some vb =>
  cases hc : hexDigVal c with
  | none =>
    have hnone : hexQuad a b c d = none := by
      simp [hexQuad, ha, hb, hc, Bind.bind, Option.bind]
    rw [hnone] at h
    exact absurd h (by simp)
  | some vc =>
  cases hd : hexDigVal d with
  | none =>
    have hnone : hexQuad a b c d = none := by
      simp [hexQuad, ha, hb, hc, hd, Bind.bind, Option.bind]
    rw [hnone] at h
    exact absurd h (by simp)
  | some vd =>
    exact ⟨hexDigVal_ne_rb a va ha, hexDigVal_ne_rb b vb hb,
      hexDigVal_ne_rb c vc hc, hexDigVal_ne_rb d vd hd⟩

/-- An escape code character is never `]`. -/
theorem escCode_ne_rb (e d : Char) (h : escCode e = some d) : e ≠ ']' := by
  intro he
  have hn : escCode ']' = none := by decide
  rw [he, hn] at h
  exact Option.noConfusion h

/-- The raw text a string-literal scan consumes: a `]` among the consumed
characters forces the code unit `93` among the decoded units. -/
theorem strUnits_consume : ∀ n r us r2, r.length ≤ n → strUnits r = some (us, r2) →
    ∃ raw, r = raw ++ r2 ∧ (']' ∈ raw → (93 : Nat) ∈ us) := by
  intro n
  induction n with
  | zero =>
    intro r us r2 hl h
    cases r with
    | nil => exact absurd h (by simp [strUnits])
    | cons c rest => simp at hl
  | succ n ih =>
    intro r us r2 hl h
    cases r with
    | nil => exact absurd h (by simp [strUnits])
    | cons c rest =>
      rw [strUnits.eq_def] at h
      simp only [] at h
      by_cases hq : c = '"'
      · rw [if_pos hq] at h
        simp only [Option.some.injEq, Prod.mk.injEq] at h
        obtain ⟨hus, hr2⟩ := h
        refine ⟨[c], ?_, ?_⟩
        · simp [hr2]
        · intro hm
          rw [hq] at hm
          exact absurd hm (by decide)
      · rw [if_neg hq] at h
        by_cases hbs : c = '\\'
        · subst hbs
          rw [if_pos rfl] at h
          split at h
          next a b c2 d r2x =>
            cases hhq : hexQuad a b c2 d with
            | none =>
              rw [hhq] at h
              exact absurd h (by simp [Bind.bind, Option.bind])
            | some nn =>
              rw [hhq] at h
              cases hsu : strUnits r2x with
              | none =>
                rw [hsu] at h
                exact absurd h (by simp [Bind.bind, Option.bind])
              | some p =>
                obtain ⟨s, rr⟩ := p
                rw [hsu] at h
                simp only [Bind.bind, Option.bind, Option.some.injEq, Prod.mk.injEq] at h
                obtain ⟨hus, hr2⟩ := h
                obtain ⟨raw, hraw, hmem⟩ := ih r2x s rr
                  (by simp only [List.length_cons] at hl; omega) hsu
                obtain ⟨hna, hnb, hnc, hnd⟩ := hexQuad_digits a b c2 d nn hhq
                refine ⟨'\\' :: 'u' :: a :: b :: c2 :: d :: raw, ?_, ?_⟩
                · rw [hraw, ← hr2]
                  simp
                · intro hm
                  simp only [List.mem_cons] at hm
                  rcases hm with h1 | h1 | h1 | h1 | h1 | h1 | h1
                  · exact absurd h1 (by decide)
                  · exact absurd h1 (by decide)
                  · exact absurd h1.symm hna
                  · exact absurd h1.symm hnb
                  · exact absurd h1.symm hnc
                  · exact absurd h1.symm hnd
                  · rw [← hus]
                    exact List.mem_cons_of_mem _ (hmem h1)
          next e r2x hne =>
            cases hec : escCode e with
            | none =>
              rw [hec] at h
              exact absurd h (by simp [Bind.bind, Option.bind])
            | some dd =>
              rw [hec] at h
              cases hsu : strUnits r2x with
              | none =>
                rw [hsu] at h
                exact absurd h (by simp [Bind.bind, Option.bind])
              | some p =>
                obtain ⟨s, rr⟩ := p
                rw [hsu] at h
                simp only [Bind.bind, Option.bind, Option.some.injEq, Prod.mk.injEq] at h
                obtain ⟨hus, hr2⟩ := h
                obtain ⟨raw, hraw, hmem⟩ := ih r2x s rr
                  (by simp only [List.length_cons] at hl; omega) hsu
                refine ⟨'\\' :: e :: raw, ?_, ?_⟩
                · rw [hraw, ← hr2]
                  simp
                · intro hm
                  simp only [List.mem_cons] at hm
                  rcases hm with h1 | h1 | h1
                  · exact absurd h1 (by decide)
                  · exact absurd h1.symm (escCode_ne_rb e dd hec)
                  · rw [← hus]
                    exact List.mem_cons_of_mem _ (hmem h1)
          next =>
            exact absurd h (by simp)
        · rw [if_neg hbs] at h
          by_cases hctl : c.toNat < 32
          · rw [if_pos hctl] at h
            exact absurd h (by simp)
          · rw [if_neg hctl] at h
            cases hsu : strUnits rest with
            | none =>
              rw [hsu] at h
              exact absurd h (by simp [Bind.bind, Option.bind])
            | some p =>
              obtain ⟨s, rr⟩ := p
              rw [hsu] at h
              simp only [Bind.bind, Option.bind, Option.some.injEq, Prod.mk.injEq] at h
              obtain ⟨hus, hr2⟩ := h
              obtain ⟨raw, hraw, hmem⟩ := ih rest s rr
                (by simp only [List.length_cons] at hl; omega) hsu
              refine ⟨c :: raw, ?_, ?_⟩
              · rw [hraw, ← hr2]
                simp
              · intro hm
                rcases List.mem_cons.mp hm with h1 | h1
                · rw [← hus, ← h1]
                  exact List.mem_cons_self ..
                · rw [← hus]
                  exact List.mem_cons_of_mem _ (hmem h1)

/-- The consumed body of a string literal whose decoded value is `]`-free is
itself free of `]` (and hence scan-safe, together with its quotes). -/
theorem strBody_consume (r s r2 : List Char) (h : strBody r = some (s, r2))
    (hs : ']' ∉ s) : ∃ raw, r = raw ++ r2 ∧ ']' ∉ raw := by
  unfold strBody at h
  cases hsu : strUnits r with
  | none => rw [hsu] at h; exact absurd h (by simp)
  | some p =>
    obtain ⟨us, rr⟩ := p
    rw [hsu] at h
    simp only [Option.some.injEq, Prod.mk.injEq] at h
    obtain ⟨hcu, hr2⟩ := h
    obtain ⟨raw, hraw, hmem⟩ := strUnits_consume r.length r us rr le_rfl hsu
    refine ⟨raw, by rw [hraw, hr2], fun hm => ?_⟩
    exact hs (by rw [← hcu]; exact mem_combineUnits us (hmem hm))

/-- The digit span and remainder reassemble the input. -/
theorem digSpan_split (t : List Char) : t = (digSpan t).1 ++ (digSpan t).2 :=
  (List.takeWhile_append_dropWhile isDig t).symm

/-- The digit span contains no `]`. -/
theorem digSpan_no_rb (t : List Char) : ']' ∉ (digSpan t).1 := by
  intro hm
  have h := List.mem_takeWhile_imp (show ']' ∈ t.takeWhile isDig from hm)
  exact absurd h (by decide)

/-- Unfolding of the fraction group at a leading dot. -/
theorem fracPart_dot (r : List Char) :
    fracPart ('.' :: r) =
      match digSpan r with
      | (dsp, r2) => if dsp = [] then ([], '.' :: r) else ('.' :: dsp, r2) := rfl

/-- The fraction group and remainder reassemble the input, and the group has
no `]`. -/
theorem fracPart_split (t : List Char) :
    t = (fracPart t).1 ++ (fracPart t).2 ∧ ']' ∉ (fracPart t).1 := by
  cases t with
  | nil => exact ⟨rfl, by simp [fracPart]⟩
  | cons c r =>
    by_cases hc : c = '.'
    · subst hc
      rw [fracPart_dot]
      cases hd : digSpan r with
      | mk dsp r2 =>
        simp only []
        by_cases hdp : dsp = []
        · rw [if_pos hdp]
          exact ⟨rfl, by simp⟩
        · rw [if_neg hdp]
          constructor
          · show '.' :: r = ('.' :: dsp) ++ r2
            have h1 := digSpan_split r
            rw [hd] at h1
            rw [List.cons_append]
            exact congrArg (List.cons '.') h1
          · intro hm
            rcases List.mem_cons.mp hm with h1 | h1
            · exact absurd h1 (by decide)
            · have h2 := digSpan_no_rb r
              rw [hd] at h2
              exact h2 h1
    · have hfp : fracPart (c :: r) = ([], c :: r) := by
        unfold fracPart
        split
        next r1 heq =>
          injection heq with h1 h2
          exact absurd h1 hc
        next => rfl
      rw [hfp]
      exact ⟨rfl, by simp⟩

/-- Unfolding of the exponent group at an exponent marker. -/
theorem expPart_e (c : Char) (r : List Char) (hce : (c = 'e' || c = 'E') = true) :
    expPart (c :: r) =
      match r with
      | s :: r1 =>
        if s = '+' || s = '-' then
          match digSpan r1 with
          | (dsp, r2) => if dsp = [] then ([], c :: s :: r1) else (c :: s :: dsp, r2)
        else
          match digSpan r with
          | (dsp, r2) => if dsp = [] then ([], c :: r) else (c :: dsp, r2)
      | [] => ([], [c]) := by
  have h0 : expPart (c :: r) =
      if c = 'e' || c = 'E' then
        (match r with
        | s :: r1 =>
          if s = '+' || s = '-' then
            match digSpan r1 with
            | (dsp, r2) => if dsp = [] then ([], c :: s :: r1) else (c :: s :: dsp, r2)
          else
            match digSpan r with
            | (dsp, r2) => if dsp = [] then ([], c :: r) else (c :: dsp, r2)
        | [] => ([], [c]))
      else ([], c :: r) := rfl
  rw [h0, if_pos hce]

/-- Unfolding of the exponent group elsewhere. -/
theorem expPart_ne (c : Char) (r : List Char) (hce : ¬(c = 'e' || c = 'E') = true) :
    expPart (c :: r) = ([], c :: r) := by
  have h0 : expPart (c :: r) =
      if c = 'e' || c = 'E' then
        (match r with
        | s :: r1 =>
          if s = '+' || s = '-' then
            match digSpan r1 with
            | (dsp, r2) => if dsp = [] then ([], c :: s :: r1) else (c :: s :: dsp, r2)
          else
            match digSpan r with
            | (dsp, r2) => if dsp = [] then ([], c :: r) else (c :: dsp, r2)
        | [] => ([], [c]))
      else ([], c :: r) := rfl
  rw [h0, if_neg hce]

/-- The exponent group and remainder reassemble the input, and the group has
no `]`. -/
theorem expPart_split (t : List Char) :
    t = (expPart t).1 ++ (expPart t).2 ∧ ']' ∉ (expPart t).1 := by
  cases t with
  | nil => exact ⟨rfl, by simp [expPart]⟩
  | cons c r =>
    by_cases hce : (c = 'e' || c = 'E') = true
    · rw [expPart_e c r hce]
      have hc_ne : c ≠ ']' := by
        simp only [Bool.or_eq_true, decide_eq_true_eq] at hce
        rcases hce with h2 | h2 <;> rw [h2] <;> decide
      cases r with
      | nil => exact ⟨rfl, by simp⟩
      | cons s r1 =>
        simp only []
        by_cases hsp : (s = '+' || s = '-') = true
        · rw [if_pos hsp]
          have hs_ne : s ≠ ']' := by
            simp only [Bool.or_eq_true, decide_eq_true_eq] at hsp
            rcases hsp with h2 | h2 <;> rw [h2] <;> decide
          cases hd : digSpan r1 with
          | mk dsp r2 =>
            simp only []
            by_cases hdp : dsp = []
            · rw [if_pos hdp]
              exact ⟨rfl, by simp⟩
            · rw [if_neg hdp]
              constructor
              · show c :: s :: r1 = (c :: s :: dsp) ++ r2
                have h1 := digSpan_split r1
                rw [hd] at h1
                rw [List.cons_append, List.cons_append]
                exact congrArg _ (congrArg _ h1)
              · intro hm
                rcases List.mem_cons.mp hm with h1 | h1
                · exact hc_ne h1.symm
                · rcases List.mem_cons.mp h1 with h2 | h2
                  · exact hs_ne h2.symm
                  · have h3 := digSpan_no_rb r1
                    rw [hd] at h3
                    exact h3 h2
        · rw [if_neg hsp]
          cases hd : digSpan (s :: r1) with
          | mk dsp r2 =>
            simp only []
            by_cases hdp : dsp = []
            · rw [if_pos hdp]
              exact ⟨rfl, by simp⟩
            · rw [if_neg hdp]
              constructor
              · show c :: s :: r1 = (c :: dsp) ++ r2
                have h1 := digSpan_split (s :: r1)
                rw [hd] at h1
                rw [List.cons_append]
                exact congrArg _ h1
              · intro hm
                rcases List.mem_cons.mp hm with h1 | h1
                · exact hc_ne h1.symm
                · have h3 := digSpan_no_rb (s :: r1)
                  rw [hd] at h3
                  exact h3 h1
    · rw [expPart_ne c r hce]
      exact ⟨rfl, by simp⟩

/-- The body of the number scanner after the optional sign: on success the
consumed lexeme reassembles the input and contains no `]`. -/
theorem numToken_body (sgn t1 ds r3 : List Char)
    (h : (match t1 with
      | [] => none
      | c :: r =>
        if c = '0' then
          match fracPart r with
          | (f, r2) =>
            match expPart r2 with
            | (e, r3) => some (sgn ++ '0' :: (f ++ e), r3)
        else
          if isDig c = true then
            match digSpan r with
            | (dsp, r1) =>
              match fracPart r1 with
              | (f, r2) =>
                match expPart r2 with
                | (e, r3) => some (sgn ++ c :: (dsp ++ f ++ e), r3)
          else none) = some (ds, r3)) :
    ∃ body, ds = sgn ++ body ∧ t1 = body ++ r3 ∧ ']' ∉ body := by
  cases t1 with
  | nil => exact absurd h (by simp)
  | cons c r =>
    simp only [] at h
    by_cases hc0 : c = '0'
    · rw [if_pos hc0] at h
      cases hfp : fracPart r with
      | mk f r2 =>
        rw [hfp] at h
        simp only [] at h
        cases hep : expPart r2 with
        | mk e r3x =>
          rw [hep] at h
          simp only [Option.some.injEq, Prod.mk.injEq] at h
          obtain ⟨hds, hr3⟩ := h
          obtain ⟨hfeq, hfnb⟩ := fracPart_split r
          rw [hfp] at hfeq hfnb
          have hfeq2 : r = f ++ r2 := hfeq
          have hfnb2 : ']' ∉ f := hfnb
          obtain ⟨heeq, henb⟩ := expPart_split r2
          rw [hep] at heeq henb
          have heeq2 : r2 = e ++ r3x := heeq
          have henb2 : ']' ∉ e := henb
          refine ⟨'0' :: (f ++ e), hds.symm, ?_, ?_⟩
          · subst hc0
            rw [List.cons_append, hfeq2, heeq2, ← hr3, List.append_assoc]
          · intro hm
            rcases List.mem_cons.mp hm with h1 | h1
            · exact absurd h1 (by decide)
            · rcases List.mem_append.mp h1 with h2 | h2
              · exact hfnb2 h2
              · exact henb2 h2
    · rw [if_neg hc0] at h
      by_cases hdg : isDig c = true
      · rw [if_pos hdg] at h
        cases hdsp : digSpan r with
        | mk dsp r1 =>
          rw [hdsp] at h
          simp only [] at h
          cases hfp : fracPart r1 with
          | mk f r2 =>
            rw [hfp] at h
            simp only [] at h
            cases hep : expPart r2 with
            | mk e r3x =>
              rw [hep] at h
              simp only [Option.some.injEq, Prod.mk.injEq] at h
              obtain ⟨hds, hr3⟩ := h
              have hdeq : r = dsp ++ r1 := by
                have h1 := digSpan_split r
                rw [hdsp] at h1
                exact h1
              have hdnb : ']' ∉ dsp := by
                have h1 := digSpan_no_rb r
                rw [hdsp] at h1
                exact h1
              obtain ⟨hfeq, hfnb⟩ := fracPart_split r1
              rw [hfp] at hfeq hfnb
              have hfeq2 : r1 = f ++ r2 := hfeq
              have hfnb2 : ']' ∉ f := hfnb
              obtain ⟨heeq, henb⟩ := expPart_split r2
              rw [hep] at heeq henb
              have heeq2 : r2 = e ++ r3x := heeq
              have henb2 : ']' ∉ e := henb
              have hcnb : c ≠ ']' := by
                intro he
                rw [he] at hdg
                exact absurd hdg (by decide)
              refine ⟨c :: (dsp ++ f ++ e), hds.symm, ?_, ?_⟩
              · rw [List.cons_append, hdeq, hfeq2, heeq2, ← hr3]
                simp [List.append_assoc]
              · intro hm
                rcases List.mem_cons.mp hm with h1 | h1
                · exact hcnb h1.symm
                · rcases List.mem_append.mp h1 with h2 | h2
                  · rcases List.mem_append.mp h2 with h3 | h3
                    · exact hdnb h3
                    · exact hfnb2 h3
                  · exact henb2 h2
      · rw [if_neg hdg] at h
        exact absurd h (by simp)

/-- A scanned number lexeme reassembles the input and contains no `]`. -/
theorem numToken_consume (t ds r3 : List Char) (h : numToken t = some (ds, r3)) :
    t = ds ++ r3 ∧ ']' ∉ ds := by
  unfold numToken at h
  split at h
  next x sgn t1 heq =>
    split at heq
    next r =>
      injection heq with h1 h2
      subst h1
      subst h2
      obtain ⟨body, hds, ht1, hbody⟩ := numToken_body ['-'] r ds r3 h
      constructor
      · rw [hds, ht1]
        simp
      · rw [hds]
        intro hm
        rcases List.mem_append.mp hm with h1 | h1
        · exact absurd (List.mem_singleton.mp h1) (by decide)
        · exact hbody h1
    next =>
      injection heq with h1 h2
      subst h1
      subst h2
      obtain ⟨body, hds, ht1, hbody⟩ := numToken_body [] t ds r3 h
      constructor
      · rw [hds, ht1]
        simp
      · rw [hds]
        intro hm
        exact hbody (by simpa using hm)

/-- A scanned literal or number reassembles the input, and the consumed text
contains no `]`. -/
theorem parseConst_consume (c : Char) (r : List Char) (v : JVal) (rest : List Char)
    (h : parseConst c r = some (v, rest)) :
    ∃ C, c :: r = C ++ rest ∧ ']' ∉ C := by
  unfold parseConst at h
  by_cases h1 : c = 'n'
  · rw [if_pos h1] at h
    split at h
    next r2 =>
      simp only [Option.some.injEq, Prod.mk.injEq] at h
      obtain ⟨hv, hrest⟩ := h
      refine ⟨c :: lc "ull", ?_, ?_⟩
      · rw [← hrest]
        rfl
      · intro hm
        rw [h1] at hm
        exact absurd hm (by decide)
    next => exact absurd h (by simp)
  · rw [if_neg h1] at h
    by_cases h2 : c = 't'
    · rw [if_pos h2] at h
      split at h
      next r2 =>
        simp only [Option.some.injEq, Prod.mk.injEq] at h
        obtain ⟨hv, hrest⟩ := h
        refine ⟨c :: lc "rue", ?_, ?_⟩
        · rw [← hrest]
          rfl
        · intro hm
          rw [h2] at hm
          exact absurd hm (by decide)
      next => exact absurd h (by simp)
    · rw [if_neg h2] at h
      by_cases h3 : c = 'f'
      · rw [if_pos h3] at h
        split at h
        next r2 =>
          simp only [Option.some.injEq, Prod.mk.injEq] at h
          obtain ⟨hv, hrest⟩ := h
          refine ⟨c :: lc "alse", ?_, ?_⟩
          · rw [← hrest]
            rfl
          · intro hm
            rw [h3] at hm
            exact absurd hm (by decide)
        next => exact absurd h (by simp)
      · rw [if_neg h3] at h
        by_cases h4 : c = 'N'
        · rw [if_pos h4] at h
          split at h
          next r2 =>
            simp only [Option.some.injEq, Prod.mk.injEq] at h
            obtain ⟨hv, hrest⟩ := h
            refine ⟨c :: lc "aN", ?_, ?_⟩
            · rw [← hrest]
              rfl
            · intro hm
              rw [h4] at hm
              exact absurd hm (by decide)
          next => exact absurd h (by simp)
        · rw [if_neg h4] at h
          by_cases h5 : c = 'I'
          · rw [if_pos h5] at h
            split at h
            next r2 =>
              simp only [Option.some.injEq, Prod.mk.injEq] at h
              obtain ⟨hv, hrest⟩ := h
              refine ⟨c :: lc "nfinity", ?_, ?_⟩
              · rw [← hrest]
                rfl
              · intro hm
                rw [h5] at hm
                exact absurd hm (by decide)
            next => exact absurd h (by simp)
          · rw [if_neg h5] at h
            by_cases h6 : c = '-'
            · rw [if_pos h6] at h
              split at h
              next r2 =>
                simp only [Option.some.injEq, Prod.mk.injEq] at h
                obtain ⟨hv, hrest⟩ := h
                refine ⟨c :: lc "Infinity", ?_, ?_⟩
                · rw [← hrest]
                  rfl
                · intro hm
                  rw [h6] at hm
                  exact absurd hm (by decide)
              next =>
                cases hnt : numToken ('-' :: r) with
                | none =>
                  rw [hnt] at h
                  exact absurd h (by simp)
                | some p =>
                  obtain ⟨dsl, r2⟩ := p
                  rw [hnt] at h
                  simp only [Option.some.injEq, Prod.mk.injEq] at h
                  obtain ⟨hv, hrest⟩ := h
                  obtain ⟨heq, hnb⟩ := numToken_consume ('-' :: r) dsl r2 hnt
                  refine ⟨dsl, ?_, hnb⟩
                  rw [← hrest, ← heq, h6]
            · rw [if_neg h6] at h
              cases hnt : numToken (c :: r) with
              | none =>
                rw [hnt] at h
                exact absurd h (by simp)
              | some p =>
                obtain ⟨dsl, r2⟩ := p
                rw [hnt] at h
                simp only [Option.some.injEq, Prod.mk.injEq] at h
                obtain ⟨hv, hrest⟩ := h
                obtain ⟨heq, hnb⟩ := numToken_consume (c :: r) dsl r2 hnt
                refine ⟨dsl, ?_, hnb⟩
                rw [← hrest, ← heq]

/-- Leading-whitespace decomposition of `skipJson`. -/
theorem skipJson_decomp (t : List Char) :
    ∃ W, t = W ++ skipJson t ∧ ScanSafe W := by
  refine ⟨t.takeWhile jsonWs, ?_, ?_⟩
  · exact (List.takeWhile_append_dropWhile jsonWs t).symm
  · apply ScanSafe_of_not_mem
    intro hm
    have h := List.mem_takeWhile_imp hm
    exact absurd h (by decide)

/-- The consumption invariant of the three parsers: whatever text a parse of
a `]`-free value consumes is scan-safe, and an item or member run stops right
before its closing bracket or brace. -/
theorem parse_consume : ∀ fu,
    (∀ t v rest, parseVal fu t = some (v, rest) → noRBVal v = true →
      ∃ C, t = C ++ rest ∧ ScanSafe C) ∧
    (∀ t vs rest, parseItems fu t = some (vs, rest) → noRBArr vs = true →
      ∃ M, t = M ++ (']' :: rest) ∧ ScanSafe M) ∧
    (∀ t ms rest, parsePairs fu t = some (ms, rest) → noRBObj ms = true →
      ∃ M, t = M ++ ('}' :: rest) ∧ ScanSafe M) := by
  intro fu
  induction fu with
  | zero =>
    refine ⟨?_, ?_, ?_⟩
    · intro t v rest h _
      exact absurd h (by simp [parseVal])
    · intro t vs rest h _
      exact absurd h (by simp [parseItems])
    · intro t ms rest h _
      exact absurd h (by simp [parsePairs])
  | succ fu ih =>
    obtain ⟨ihVal, ihItems, ihPairs⟩ := ih
    refine ⟨?_, ?_, ?_⟩
    · intro t v rest h hnb
      cases t with
      | nil => exact absurd h (by simp [parseVal])
      | cons c r =>
        rw [parseVal.eq_def] at h
        simp only [] at h
        by_cases hq : c = '"'
        · rw [if_pos hq] at h
          cases hsb : strBody r with
          | none => rw [hsb] at h; exact absurd h (by simp)
          | some p =>
            obtain ⟨s, r2⟩ := p
            rw [hsb] at h
            simp only [Option.some.injEq, Prod.mk.injEq] at h
            obtain ⟨hv, hrest⟩ := h
            have hs : ']' ∉ s := by
              rw [← hv] at hnb
              simpa [noRBVal] using hnb
            obtain ⟨raw, hraw, hrb⟩ := strBody_consume r s r2 hsb hs
            refine ⟨'"' :: raw, ?_, ?_⟩
            · rw [hq, hraw, ← hrest]
              simp
            · apply ScanSafe_of_not_mem
              intro hm
              rcases List.mem_cons.mp hm with h1 | h1
              · exact absurd h1 (by decide)
              · exact hrb h1
        · rw [if_neg hq] at h
          by_cases hlb : c = '['
          · rw [if_pos hlb] at h
            obtain ⟨W, hW, hWs⟩ := skipJson_decomp r
            split at h
            next r2 heq =>
              simp only [Option.some.injEq, Prod.mk.injEq] at h
              obtain ⟨hv, hrest⟩ := h
              refine ⟨'[' :: (W ++ [']']), ?_, ScanSafe_arr W hWs⟩
              rw [hlb, hW, heq, ← hrest]
              simp
            next t1x hne =>
              cases hpi : parseItems fu (skipJson r) with
              | none => rw [hpi] at h; exact absurd h (by simp)
              | some p =>
                obtain ⟨l, r2⟩ := p
                rw [hpi] at h
                simp only [Option.some.injEq, Prod.mk.injEq] at h
                obtain ⟨hv, hrest⟩ := h
                have hl : noRBArr l = true := by
                  rw [← hv] at hnb
                  simpa [noRBVal] using hnb
                obtain ⟨M, hM, hMs⟩ := ihItems (skipJson r) l r2 hpi hl
                refine ⟨'[' :: ((W ++ M) ++ [']']), ?_,
                  ScanSafe_arr _ (ScanSafe_append W M hWs hMs)⟩
                rw [hlb, hW, hM, ← hrest]
                simp
          · rw [if_neg hlb] at h
            by_cases hob : c = '{'
            · rw [if_pos hob] at h
              obtain ⟨W, hW, hWs⟩ := skipJson_decomp r
              split at h
              next r2 heq =>
                simp only [Option.some.injEq, Prod.mk.injEq] at h
                obtain ⟨hv, hrest⟩ := h
                refine ⟨'{' :: (W ++ ['}']), ?_, ScanSafe_obj W hWs⟩
                rw [hob, hW, heq, ← hrest]
                simp
              next t1x hne =>
                cases hpp : parsePairs fu (skipJson r) with
                | none => rw [hpp] at h; exact absurd h (by simp)
                | some p =>
                  obtain ⟨ms2, r2⟩ := p
                  rw [hpp] at h
                  simp only [Option.some.injEq, Prod.mk.injEq] at h
                  obtain ⟨hv, hrest⟩ := h
                  have hl : noRBObj ms2 = true := by
                    rw [← hv] at hnb
                    simpa [noRBVal] using hnb
                  obtain ⟨M, hM, hMs⟩ := ihPairs (skipJson r) ms2 r2 hpp hl
                  refine ⟨'{' :: ((W ++ M) ++ ['}']), ?_,
                    ScanSafe_obj _ (ScanSafe_append W M hWs hMs)⟩
                  rw [hob, hW, hM, ← hrest]
                  simp
            · rw [if_neg hob] at h
              obtain ⟨C, hC, hrb⟩ := parseConst_consume c r v rest h
              exact ⟨C, hC, ScanSafe_of_not_mem C hrb⟩
    · intro t vs rest h hnb
      rw [parseItems.eq_def] at h
      simp only [] at h
      cases hpv : parseVal fu t with
      | none => rw [hpv] at h; exact absurd h (by simp)
      | some p =>
        obtain ⟨v, r⟩ := p
        rw [hpv] at h
        simp only [] at h
        obtain ⟨W1, hW1, hW1s⟩ := skipJson_decomp r
        split at h
        next r2 heq =>
          cases hpi : parseItems fu (skipJson r2) with
          | none => rw [hpi] at h; exact absurd h (by simp)
          | some p2 =>
            obtain ⟨vs2, r3⟩ := p2
            rw [hpi] at h
            simp only [Option.some.injEq, Prod.mk.injEq] at h
            obtain ⟨hvs, hrest⟩ := h
            have hnbv : noRBVal v = true ∧ noRBArr vs2 = true := by
              rw [← hvs] at hnb
              simpa [noRBArr, Bool.and_eq_true] using hnb
            obtain ⟨C, hC, hCs⟩ := ihVal t v r hpv hnbv.1
            obtain ⟨W2, hW2, hW2s⟩ := skipJson_decomp r2
            obtain ⟨M2, hM2, hM2s⟩ := ihItems (skipJson r2) vs2 r3 hpi hnbv.2
            refine ⟨C ++ (W1 ++ (',' :: (W2 ++ M2))), ?_, ?_⟩
            · rw [hC, hW1, heq, hW2, hM2, ← hrest]
              simp
            · exact ScanSafe_append _ _ hCs (ScanSafe_append _ _ hW1s
                (ScanSafe_cons ',' _ (by decide) (ScanSafe_append _ _ hW2s hM2s)))
        next r2 heq =>
          simp only [Option.some.injEq, Prod.mk.injEq] at h
          obtain ⟨hvs, hrest⟩ := h
          have hnbv : noRBVal v = true := by
            rw [← hvs] at hnb
            simpa [noRBArr] using hnb
          obtain ⟨C, hC, hCs⟩ := ihVal t v r hpv hnbv
          refine ⟨C ++ W1, ?_, ScanSafe_append _ _ hCs hW1s⟩
          rw [hC, hW1, heq, ← hrest]
          simp
        next => exact absurd h (by simp)
    · intro t ms rest h hnb
      rw [parsePairs.eq_def] at h
      simp only [] at h
      split at h
      next r =>
        cases hsb : strBody r with
        | none => rw [hsb] at h; exact absurd h (by simp)
        | some p =>
          obtain ⟨k, r1⟩ := p
          rw [hsb] at h
          simp only [] at h
          obtain ⟨W1, hW1, hW1s⟩ := skipJson_decomp r1
          split at h
          next r2 heq =>
            cases hpv : parseVal fu (skipJson r2) with
            | none => rw [hpv] at h; exact absurd h (by simp)
            | some p2 =>
              obtain ⟨v, r3⟩ := p2
              rw [hpv] at h
              simp only [] at h
              obtain ⟨W2, hW2, hW2s⟩ := skipJson_decomp r2
              obtain ⟨W3, hW3, hW3s⟩ := skipJson_decomp r3
              split at h
              next r4 heq2 =>
                cases hpp : parsePairs fu (skipJson r4) with
                | none => rw [hpp] at h; exact absurd h (by simp)
                | some p3 =>
                  obtain ⟨ms2, r5⟩ := p3
                  rw [hpp] at h
                  simp only [Option.some.injEq, Prod.mk.injEq] at h
                  obtain ⟨hms, hrest⟩ := h
                  have hx : (']' ∉ k) ∧ noRBVal v = true ∧ noRBObj ms2 = true := by
                    rw [← hms] at hnb
                    simpa [noRBObj, Bool.and_eq_true, and_assoc] using hnb
                  obtain ⟨raw, hraw, hrawnb⟩ := strBody_consume r k r1 hsb hx.1
                  obtain ⟨C, hC, hCs⟩ := ihVal (skipJson r2) v r3 hpv hx.2.1
                  obtain ⟨W4, hW4, hW4s⟩ := skipJson_decomp r4
                  obtain ⟨M2, hM2, hM2s⟩ := ihPairs (skipJson r4) ms2 r5 hpp hx.2.2
                  refine ⟨'"' :: (raw ++ (W1 ++ (':' ::
                    (W2 ++ (C ++ (W3 ++ (',' :: (W4 ++ M2)))))))), ?_, ?_⟩
                  · rw [hraw, hW1, heq, hW2, hC, hW3, heq2, hW4, hM2, ← hrest]
                    simp
                  · refine ScanSafe_cons '"' _ (by decide) ?_
                    refine ScanSafe_append _ _ (ScanSafe_of_not_mem raw hrawnb) ?_
                    refine ScanSafe_append _ _ hW1s ?_
                    refine ScanSafe_cons ':' _ (by decide) ?_
                    refine ScanSafe_append _ _ hW2s ?_
                    refine ScanSafe_append _ _ hCs ?_
                    refine ScanSafe_append _ _ hW3s ?_
                    refine ScanSafe_cons ',' _ (by decide) ?_
                    exact ScanSafe_append _ _ hW4s hM2s
              next r4 heq2 =>
                simp only [Option.some.injEq, Prod.mk.injEq] at h
                obtain ⟨hms, hrest⟩ := h
                have hx : (']' ∉ k) ∧ noRBVal v = true := by
                  rw [← hms] at hnb
                  simpa [noRBObj, Bool.and_eq_true] using hnb
                obtain ⟨raw, hraw, hrawnb⟩ := strBody_consume r k r1 hsb hx.1
                obtain ⟨C, hC, hCs⟩ := ihVal (skipJson r2) v r3 hpv hx.2
                refine ⟨'"' :: (raw ++ (W1 ++ (':' :: (W2 ++ (C ++ W3))))), ?_, ?_⟩
                · rw [hraw, hW1, heq, hW2, hC, hW3, heq2, ← hrest]
                  simp
                · refine ScanSafe_cons '"' _ (by decide) ?_
                  refine ScanSafe_append _ _ (ScanSafe_of_not_mem raw hrawnb) ?_
                  refine ScanSafe_append _ _ hW1s ?_
                  refine ScanSafe_cons ':' _ (by decide) ?_
                  refine ScanSafe_append _ _ hW2s ?_
                  exact ScanSafe_append _ _ hCs hW3s
              next => exact absurd h (by simp)
          next => exact absurd h (by simp)
      next => exact absurd h (by simp)

/-- A run of JSON whitespace after the final `]` of the input is empty. -/
theorem ws_tail_nil (r2 P : List Char) (hws : skipJson r2 = [])
    (hlast : (P ++ r2).getLast? = some ']') : r2 = [] := by
  cases r2 with
  | nil => rfl
  | cons c2 r3 =>
    exfalso
    have hall : ∀ x ∈ c2 :: r3, jsonWs x = true := List.dropWhile_eq_nil_iff.mp hws
    rw [List.getLast?_append, List.getLast?_eq_getLast (c2 :: r3) (by simp)] at hlast
    have hx : (c2 :: r3).getLast (by simp) = ']' := by simpa using hlast
    have hmem := List.getLast_mem (l := c2 :: r3) (by simp)
    rw [hx] at hmem
    have hws2 := hall ']' hmem
    exact absurd hws2 (by decide)

/-- A text the marker matches starts with `[`. -/
theorem nameArrayAt_head (t : List Char) (h : nameArrayAt t = true) : ∃ R, t = '[' :: R := by
  rw [nameArrayAt.eq_def] at h
  split at h
  next r => exact ⟨r, rfl⟩
  next => exact absurd h (by simp)

/-- The heart of the amended claim: on any `[`-headed, `]`-terminated text
that `json.loads` decodes to a `]`-free value, the bracket-balance scan
either stops exactly at the final `]` or never stops, so the isolated slice
is the whole text — nested arrays inside never end the scan early. -/
theorem bracketSlice_json (R : List Char) (v : JVal)
    (hA : json_loads ('[' :: R) = .ok v)
    (hlast : ('[' :: R).getLast? = some ']')
    (hnb : noRBVal v = true) :
    bracketSlice ('[' :: R) = '[' :: R := by
  have hskip : skipJson ('[' :: R) = '[' :: R := by
    show List.dropWhile jsonWs ('[' :: R) = _
    rw [List.dropWhile_cons, if_neg (by decide)]
  unfold json_loads at hA
  simp only [hskip] at hA
  split at hA
  next v1 r heq =>
    by_cases hif : skipJson r = []
    · rw [if_pos hif] at hA
      have hv1 : v1 = v := by
        simp only [Except.ok.injEq] at hA
        exact hA
      subst hv1
      rw [show 2 * (('[' :: R) : List Char).length + 4 =
        (2 * ('[' :: R).length + 3) + 1 from by omega] at heq
      rw [parseVal.eq_def] at heq
      simp only [Char.reduceEq, reduceIte] at heq
      obtain ⟨W, hW, hWs⟩ := skipJson_decomp R
      split at heq
      next r2 heq2 =>
        simp only [Option.some.injEq, Prod.mk.injEq] at heq
        obtain ⟨hv1, hr⟩ := heq
        have hr2nil : r2 = [] := by
          apply ws_tail_nil r2 (('[' :: W) ++ [']'])
          · rw [hr]
            exact hif
          · have hsh : ('[' : Char) :: R = (('[' :: W) ++ [']']) ++ r2 := by
              rw [hW, heq2]
              simp
            rw [← hsh]
            exact hlast
        subst hr2nil
        have hR : ('[' : Char) :: R = '[' :: (W ++ [']']) := by
          rw [hW, heq2]
        rw [hR]
        exact bracketSlice_rbclose W hWs.1
      next t1x hne =>
        cases hpi : parseItems (2 * ('[' :: R).length + 3) (skipJson R) with
        | none =>
          rw [hpi] at heq
          exact absurd heq (by simp)
        | some p =>
          obtain ⟨l, r2⟩ := p
          rw [hpi] at heq
          simp only [Option.some.injEq, Prod.mk.injEq] at heq
          obtain ⟨hv1, hr⟩ := heq
          have hl : noRBArr l = true := by
            have hnb2 : noRBVal (JVal.arr l) = true := by
              rw [hv1]
              exact hnb
            simpa [noRBVal] using hnb2
          obtain ⟨M, hM, hMs⟩ := (parse_consume (2 * ('[' :: R).length + 3)).2.1
            (skipJson R) l r2 hpi hl
          have hr2nil : r2 = [] := by
            apply ws_tail_nil r2 (('[' :: (W ++ M)) ++ [']'])
            · rw [hr]
              exact hif
            · have hsh : ('[' : Char) :: R = (('[' :: (W ++ M)) ++ [']']) ++ r2 := by
                rw [hW, hM]
                simp
              rw [← hsh]
              exact hlast
          subst hr2nil
          have hR : ('[' : Char) :: R = '[' :: ((W ++ M) ++ [']']) := by
            rw [hW, hM]
            simp
          rw [hR]
          exact bracketSlice_rbclose (W ++ M) (ScanSafe_append W M hWs hMs).1
    · rw [if_neg hif] at hA
      exact absurd hA (by simp)
  next heq => exact absurd hA (by simp)

/-- Claim C1 (amended): for every input `md ++ A` in which the marker regex
first matches at the head of `A`, where `A` is any well-formed JSON array
text of complete specification objects — whatever its whitespace, key order,
escapes or nested arrays — whose decoded string values and keys contain no
`]` and whose objects all coerce, `generate_masterplan` returns the stripped
prefix `md` as the markdown and exactly the coerced records, in order, as
the specs; the bracket-balance scan does not stop at a `]` inside a nested
array. -/
theorem C1_markdown_and_specs_extracted (md A : List Char) (v : JVal)
    (specs : List APISpec)
    (hmd : ∀ i, i < md.length → nameArrayAt ((md ++ A).drop i) = false)
    (hmark : nameArrayAt A = true)
    (hlast : A.getLast? = some ']')
    (hparse : json_loads A = .ok v)
    (hco : iterCoerce v = .ok specs)
    (hnb : noRBVal v = true) :
    generate_masterplan (.ok (md ++ A)) = ⟨pyStrip md, specs, none⟩ := by
  have hsearch : searchNameArray (md ++ A) = some md.length :=
    searchNameArray_append md A hmark hmd
  have hdrop : (md ++ A).drop md.length = A := List.drop_left md A
  have htake : (md ++ A).take md.length = md := List.take_left md A
  obtain ⟨R, hR⟩ := nameArrayAt_head A hmark
  have hslice : bracketSlice A = A := by
    rw [hR]
    exact bracketSlice_json R v (by rw [← hR]; exact hparse) (by rw [← hR]; exact hlast) hnb
  have hext : masterplanExtract (md ++ A) = .ok ⟨pyStrip md, specs, none⟩ := by
    unfold masterplanExtract
    rw [hsearch]
    simp only [hdrop, hslice, hparse, htake, Bind.bind, Except.bind, hco,
      Pure.pure, Except.pure]
  have htry : masterplanTry (md ++ A) = .ok ⟨pyStrip md, specs, none⟩ := by
    unfold masterplanTry
    rw [hext]
  show (match masterplanTry (md ++ A) with
    | Except.ok r => r
    | Except.error e =>
      (⟨lc "An error occurred while generating the masterplan: " ++ e.msg, [], none⟩ :
        MasterplanResponse)) =
    (⟨pyStrip md, specs, none⟩ : MasterplanResponse)
  rw [htry]

/-- The spec's `"Orders"` example array, pretty-printed with per-member
indentation as the masterplan prompt requests. -/
def c1WitA : List Char :=
  lc "[\n  \x7b\n    \"name\": \"Orders\",\n    \"description\": \"d\",\n    \"endpoints\": [\n      \x7b\"path\": \"/o\", \"method\": \"GET\", \"purpose\": \"list\"\x7d\n    ],\n    \"build_in_house\": true,\n    \"reason\": \"core\"\n  \x7d\n]"

/-- The decoded value of `c1WitA`. -/
def c1WitVal : JVal :=
  .arr [.obj [(lc "name", .str (lc "Orders")), (lc "description", .str (lc "d")),
    (lc "endpoints", .arr [.obj [(lc "path", .str (lc "/o")),
      (lc "method", .str (lc "GET")), (lc "purpose", .str (lc "list"))]]),
    (lc "build_in_house", .bool true), (lc "reason", .str (lc "core"))]]

/-- The `APISpec` the example coerces to. -/
def c1WitSpec : APISpec :=
  ⟨lc "Orders", lc "d",
    [[(lc "path", .str (lc "/o")), (lc "method", .str (lc "GET")),
      (lc "purpose", .str (lc "list"))]], true, lc "core"⟩

/-- Witness for C1 at the spec's example with a pretty-printed array: the
markdown is `"Plan overview."` and one `"Orders"` record with one endpoint
is extracted, the nested `endpoints` array notwithstanding. -/
theorem C1_witness :
    ((∀ i, i < c1WitMd.length → nameArrayAt ((c1WitMd ++ c1WitA).drop i) = false) ∧
      nameArrayAt c1WitA = true ∧
      c1WitA.getLast? = some ']' ∧
      json_loads c1WitA = .ok c1WitVal ∧
      iterCoerce c1WitVal = .ok [c1WitSpec] ∧
      noRBVal c1WitVal = true) ∧
    generate_masterplan (.ok (c1WitMd ++ c1WitA)) =
      ⟨pyStrip c1WitMd, [c1WitSpec], none⟩ :=
  ⟨⟨by decide, by decide, rfl, rfl, rfl, rfl⟩,
   C1_markdown_and_specs_extracted c1WitMd c1WitA c1WitVal [c1WitSpec]
     (by decide) (by decide) rfl rfl rfl rfl⟩
